import Mathlib

/-!
# Verification of the `brplotviz` table-rendering pipeline

A shallow embedding of `src/brplotviz/table/__init__.py`,
`src/brplotviz/table/rules.py` and `src/brplotviz/table/styles.py`.
Python lists become `List`, cells before formatting become `PyVal`,
rows mixed with rule-marker sentinels become the sum type `TEntry`,
and operations that can raise in Python return `Except String`.
-/

set_option autoImplicit false

namespace Brplotviz

/-! ## `rules.py`: the rule-marker classes and their priorities -/

/-- The six rule classes of `rules.py`: `TopRule`, `BotRule`, `NoRule`,
`HeadRule`, `ExtraRule`, `MidRule`. -/
inductive Rule where
  | top
  | bot
  | no
  | head
  | extra
  | mid
deriving DecidableEq, Repr

/-- The `priority` class attribute of each rule class
(`TopRule.priority = 0`, ..., `MidRule.priority = 5`). -/
def Rule.priority : Rule → Nat
  | .top => 0
  | .bot => 1
  | .no => 2
  | .head => 3
  | .extra => 4
  | .mid => 5

/-- `type(rule).__name__`, used by the `test` style's `rule` method. -/
def Rule.name : Rule → String
  | .top => "TopRule"
  | .bot => "BotRule"
  | .no => "NoRule"
  | .head => "HeadRule"
  | .extra => "ExtraRule"
  | .mid => "MidRule"

/-! ## Cells before formatting -/

/-- A Python cell value before formatting.  The repository feeds strings
and numbers into `print_table`; we model the integer and string cases. -/
inductive PyVal where
  | vstr (s : String)
  | vint (n : Int)
deriving DecidableEq, Repr

/-- Python `str()` on a cell value. -/
def pyStr : PyVal → String
  | .vstr s => s
  | .vint n => toString n

/-- One entry of the heterogeneous row sequence of `print_table`:
either a data row or a rule-marker object (`isinstance(row, rules.Rule)`). -/
inductive TEntry (α : Type) where
  | data (row : List α)
  | rule (r : Rule)
deriving DecidableEq, Repr

/-- `True` exactly when `_rule_check` returns a rule object. -/
def TEntry.isRule {α : Type} : TEntry α → Bool
  | .data _ => false
  | .rule _ => true

/-- The rule carried by a rule entry, `none` for data rows. -/
def entryRule? {α : Type} : TEntry α → Option Rule
  | .data _ => none
  | .rule r => some r

/-- The row carried by a data entry, `none` for rule markers. -/
def entryData? {α : Type} : TEntry α → Option (List α)
  | .data r => some r
  | .rule _ => none

/-! ## Formatting (`_apply_format`)

`_apply_format` builds the template `"{" + format_entry + "}"` and calls
`.format(entry)` on it inside a `try`/`except`; on any exception the cell
falls back to `str(entry)`.  The Format Specification Mini-Language is an
external convention, so the functions below are parameterised by
`fmt : String → PyVal → Option String`, a model of
`("{" + spec + "}").format(value)` where `none` means the call raises. -/

/-- One element of a `formatter` list argument: in Python either a format
string (flat list) or an inner list of strings (nested list). -/
inductive FmtEntry where
  | fstr (s : String)
  | flist (l : List String)
deriving DecidableEq, Repr

/-- The `formatter` argument of `print_table`: `None`, a plain string, or
a list whose elements are strings or inner lists. -/
inductive Formatter where
  | fnone
  | fstr (s : String)
  | flist (l : List FmtEntry)
deriving DecidableEq, Repr

/-- The `try`/`except` body of `_apply_format` for one cell with a string
template: `("{" + t + "}").format(v)`, falling back to `str(v)` on error. -/
def formatCell (fmt : String → PyVal → Option String) (t : String) (v : PyVal) : String :=
  match fmt t v with
  | some s => s
  | none => pyStr v

/-- The per-row loop `for format_entry, entry in zip(formatter, row)` of
`_apply_format`.  `None` becomes the template `""` repeated; a plain string
is repeated; a list is zipped with the row (truncating, as `zip` does).
A nested-list element makes `"{" + format_entry` raise `TypeError`, which
the `except` turns into `str(entry)`. -/
def applyFormatRow (fmt : String → PyVal → Option String) (f : Formatter)
    (row : List PyVal) : List String :=
  match f with
  | .fnone => row.map (formatCell fmt "")
  | .fstr s => row.map (formatCell fmt s)
  | .flist l =>
      (l.zip row).map fun p =>
        match p.1 with
        | .fstr s => formatCell fmt s p.2
        | .flist _ => pyStr p.2

/-- `_apply_format`: rows are converted cell by cell, rule markers are
passed through unchanged. -/
def applyFormat (fmt : String → PyVal → Option String) (f : Formatter)
    (table : List (TEntry PyVal)) : List (TEntry String) :=
  table.map fun e =>
    match e with
    | .data row => .data (applyFormatRow fmt f row)
    | .rule r => .rule r

/-- A small concrete model of `("{" + spec + "}").format(value)` for the
templates exercised by the repository: the empty spec is `str`, `":.2f"`
renders an integer with two decimals and raises on a string, and any other
template raises. -/
def pyFormat : String → PyVal → Option String
  | "", v => some (pyStr v)
  | ":.2f", .vint n => some (toString n ++ ".00")
  | _, _ => none

/-! ## `_transpose`, `_clean_table`, `_find_col_width` -/

/-- Length of the longest row, the number of tuples `itertools.zip_longest`
produces. -/
def maxLen {α : Type} (tbl : List (List α)) : Nat :=
  tbl.foldl (fun m r => max m r.length) 0

/-- `_transpose`: `list(map(list, itertools.zip_longest(*table, fillvalue=fill)))`.
Row `j` of the result collects entry `j` of every input row, missing
entries replaced by the fill value. -/
def transposeFill {α : Type} (fill : α) (tbl : List (List α)) : List (List α) :=
  (List.range (maxLen tbl)).map fun j => tbl.map fun r => r.getD j fill

/-- `_clean_table` with a running row index: data rows are collected in
order, rule markers are recorded in `rule_dict` keyed by their index. -/
def cleanTableAux {α : Type} : Nat → List (TEntry α) → List (List α) × List (Nat × Rule)
  | _, [] => ([], [])
  | i, e :: rest =>
      let p := cleanTableAux (i + 1) rest
      match e with
      | .data r => (r :: p.1, p.2)
      | .rule ru => (p.1, (i, ru) :: p.2)

/-- `_clean_table(table)`: returns `(clean_table, rule_dict)`. -/
def cleanTable {α : Type} (tbl : List (TEntry α)) : List (List α) × List (Nat × Rule) :=
  cleanTableAux 0 tbl

/-- Python `max(len(entry) for entry in col)`: raises `ValueError` on an
empty column. -/
def pyMaxLen (col : List String) : Except String Nat :=
  match col with
  | [] => .error "ValueError: max() arg is an empty sequence"
  | x :: xs => .ok (xs.foldl (fun m e => max m e.length) x.length)

/-- `_find_col_width` on the transposed table: the list comprehension
`[max([len(entry) for entry in col]) for col in table]`, propagating the
`ValueError` of an empty column. -/
def findColWidth : List (List String) → Except String (List Nat)
  | [] => .ok []
  | col :: rest => do
      let w ← pyMaxLen col
      let ws ← findColWidth rest
      pure (w :: ws)

/-! ## `_get_alignments` and `_align` -/

/-- The `align` argument of `print_table`: `None`, a plain string, or a
list whose entries are strings or `None`. -/
inductive AlignSpec where
  | anone
  | astr (s : String)
  | alist (l : List (Option String))
deriving DecidableEq, Repr

/-- `_get_alignments`: `None` stays `None`; a string is broadcast over the
columns; a list is `zip_longest`ed with the columns, missing entries
filled with `"l"` (the result keeps the longer of the two lengths). -/
def getAlignments (cols : List (List String)) (a : AlignSpec) :
    Option (List (Option String)) :=
  match a with
  | .anone => none
  | .astr s => some (List.replicate cols.length (some s))
  | .alist l =>
      some ((List.range (max cols.length l.length)).map fun i => l.getD i (some "l"))

/-- `align_dict.get(a, "")` with `align_dict = {"l": "<", "c": "^", "r": ">", "": ""}`. -/
def alignCode (a : Option String) : String :=
  match a with
  | some "l" => "<"
  | some "c" => "^"
  | some "r" => ">"
  | _ => ""

/-- A run of `n` spaces. -/
def spaces (n : Nat) : String :=
  String.mk (List.replicate n ' ')

/-- `("{:" + code + str(width) + "}").format(s)` for the codes produced by
`alignCode`: minimum-width padding with spaces, left / centered (extra
space on the right) / right; the empty code also left-aligns strings. -/
def padCell (code : String) (w : Nat) (s : String) : String :=
  if code = ">" then spaces (w - s.length) ++ s
  else if code = "^" then
    spaces ((w - s.length) / 2) ++ s ++ spaces ((w - s.length) - (w - s.length) / 2)
  else s ++ spaces (w - s.length)

/-- `_align`: `None` alignments leave the table untouched; otherwise
`zip(align_code, table, col_widths)` (truncating to the shortest) pads
every cell of each column to the column's width. -/
def alignTable (alignments : Option (List (Option String)))
    (cols : List (List String)) (widths : List Nat) : List (List String) :=
  match alignments with
  | none => cols
  | some al =>
      ((al.map alignCode).zip (cols.zip widths)).map fun p =>
        p.2.1.map (padCell p.1 p.2.2)

/-! ## `styles.py` -/

/-- The table styles shipped by `styles.py`. -/
inductive StyleKind where
  | scsv
  | stsv
  | slatex
  | smarkdown
  | stest
deriving DecidableEq, Repr

/-- The separator attributes set by `Style.__init__`. -/
structure StyleCfg where
  linestart : String
  firstsep : String
  itemsep : String
  lineend : String
  padLeft : String
  padRight : String
deriving DecidableEq, Repr

/-- The constructor arguments of each concrete style class (with default
keyword arguments). -/
def styleCfg : StyleKind → StyleCfg
  | .scsv => ⟨"", ",", ",", "", "", ""⟩
  | .stsv => ⟨"", "\t", "\t", "", "", ""⟩
  | .slatex => ⟨"", "&", "&", "\\\\", "", ""⟩
  | .smarkdown => ⟨"|", "|", "|", "|", "", ""⟩
  | .stest => ⟨"^", "||", "|", "$", " <", "> "⟩

/-- `Style.row`: `row[0]` raises `IndexError` on an empty row; otherwise
the cells are joined with the configured separators and paddings. -/
def rowRender (c : StyleCfg) (row : List String) : Except String String :=
  match row with
  | [] => .error "IndexError: list index out of range"
  | x :: rest =>
      .ok (c.linestart ++ c.padRight ++ x
        ++ c.padLeft ++ c.firstsep ++ c.padRight
        ++ String.intercalate (c.padLeft ++ c.itemsep ++ c.padRight) rest
        ++ c.padLeft ++ c.lineend)

/-- One entry of `markdown.modify_col_widths`: `None` gets a floor of 3,
`"c"` a floor of 5, everything else a floor of 4. -/
def mdMinWidth (a : Option String) (w : Nat) : Nat :=
  match a with
  | none => max 3 w
  | some s => if s = "c" then max 5 w else max 4 w

/-- `markdown.modify_col_widths`: a `None` alignment list is broadcast to
one `None` per column, then `zip(col_widths, align)` (truncating) applies
the per-alignment minimum widths. -/
def mdModifyColWidths (ws : List Nat) (al : Option (List (Option String))) : List Nat :=
  (ws.zip (match al with
    | none => List.replicate ws.length (none : Option String)
    | some l => l)).map fun p => mdMinWidth p.2 p.1

/-- `style.modify_col_widths`: the base-class identity for every style
except `markdown`. -/
def styleModify (k : StyleKind) (ws : List Nat) (al : Option (List (Option String))) :
    List Nat :=
  match k with
  | .smarkdown => mdModifyColWidths ws al
  | _ => ws

/-- `n` dashes, `"-" * n`. -/
def dashes (n : Nat) : String :=
  String.mk (List.replicate n '-')

/-- The body of `markdown.rule`'s per-column loop for one
`zip_longest(widths, align, fillvalue="")` pair.  A missing width is the
fill value `""`, on which `max(3, w)` / `w - 1` raise `TypeError`; a
`None` or `""` alignment gives plain dashes, `"l"`/`"c"`/`"r"` add the
colon markers, and any other alignment appends nothing. -/
def mdRuleCell (w : Option Nat) (a : Option String) : Except String (List String) :=
  match a, w with
  | none, some w => .ok [dashes (max 3 w)]
  | some "", some w => .ok [dashes (max 3 w)]
  | some "l", some w => .ok [":" ++ dashes (max 3 (w - 1))]
  | some "c", some w => .ok [":" ++ dashes (max 3 (w - 2)) ++ ":"]
  | some "r", some w => .ok [dashes (max 3 (w - 1)) ++ ":"]
  | some _, some _ => .ok []
  | none, none => .error "TypeError"
  | some _, none =>
      match a with
      | some "" => .error "TypeError"
      | some "l" => .error "TypeError"
      | some "c" => .error "TypeError"
      | some "r" => .error "TypeError"
      | _ => .ok []

/-- The head-separator line of `markdown.rule`: collect the per-column
cells over `zip_longest(widths, align, fillvalue="")` and render them
through `self.row`. -/
def mdRuleLine (ws : List Nat) (al : List (Option String)) : Except String String := do
  let n := max ws.length al.length
  let cells ← (List.range n).foldlM
    (fun acc i => do
      let cs ← mdRuleCell (ws.get? i) ((al.get? i).getD (some ""))
      pure (acc ++ cs))
    ([] : List String)
  rowRender (styleCfg .smarkdown) cells

/-- `style.rule(widths, align, rule_type)`.  `csv`/`tsv` draw only a blank
line for `ExtraRule`; `latex` draws the booktabs rules; `markdown` draws
only the head separator (broadcasting a `None` alignment argument);
`test` stamps the rule class name; everything else is `None`. -/
def styleRule (k : StyleKind) (ws : List Nat) (al : Option (List (Option String)))
    (r : Rule) : Except String (Option String) :=
  match k with
  | .scsv | .stsv =>
      .ok (match r with
        | .extra => some ""
        | _ => none)
  | .slatex =>
      .ok (match r with
        | .top => some "\\toprule"
        | .head => some "\\midrule"
        | .bot => some "\\bottomrule"
        | .extra => some "\\addlinespace"
        | _ => none)
  | .smarkdown =>
      match r with
      | .head =>
          let al2 := match al with
            | none => List.replicate ws.length (none : Option String)
            | some l => l
          (mdRuleLine ws al2).map some
      | _ => .ok none
  | .stest => .ok (some ("---" ++ r.name ++ "---"))

/-! ## `replace` -/

/-- `replace(table, replacement)` restricted to the transposed string
table it is applied to inside `print_table`: each cell is looked up in
the replacement association list and substituted on an exact match. -/
def replaceTable (repl : List (String × String)) (cols : List (List String)) :
    List (List String) :=
  cols.map fun col => col.map fun e =>
    match repl.lookup e with
    | some t => t
    | none => e

/-! ## `_newline_split` -/

/-- Python `"\n" in cell` (the separator is a single character). -/
def hasNewline (s : String) : Bool :=
  s.data.contains '\n'

/-- Python `s.split(sep)` for a single-character separator, over the
character list: segments between separator characters, empty segments
included. -/
def splitAux (sep : Char) : List Char → List Char → List String
  | [], acc => [String.mk acc.reverse]
  | c :: rest, acc =>
      if c = sep then String.mk acc.reverse :: splitAux sep rest []
      else splitAux sep rest (c :: acc)

/-- Python `s.split(sep)` for a single-character separator. -/
def pySplit (sep : Char) (s : String) : List String :=
  splitAux sep s.data []

/-- Python `cell.split("\n")`. -/
def splitCell (s : String) : List String :=
  pySplit '\n' s

/-- `extra_lines[i][j] = v`, out-of-range indices never occur in the
source loop. -/
def setCell (lines : List (List String)) (i j : Nat) (v : String) :
    List (List String) :=
  lines.set i ((lines.getD i []).set j v)

/-- `for i in range(len(extra_lines), max_new_lines): extra_lines.append([""] * len(row))`. -/
def growTo (lines : List (List String)) (m n : Nat) : List (List String) :=
  lines ++ (List.range (m - lines.length)).map fun _ => List.replicate n ""

/-- The body of `_newline_split`'s per-cell loop: a cell without a line
break lands in row 0; otherwise the grid is grown to the line count and
each line of the cell is written to its row at column `j`. -/
def newlineStep (n : Nat) (lines : List (List String)) (j : Nat) (cell : String) :
    List (List String) :=
  if hasNewline cell then
    let cls := splitCell cell
    let grown := growTo lines (max lines.length cls.length) n
    (cls.enum).foldl (fun ls p => setCell ls p.1 j p.2) grown
  else
    setCell lines 0 j cell

/-- `for col_number, cell in enumerate(row)` of `_newline_split`,
threading the column index. -/
def newlineLoop (n : Nat) : Nat → List String → List (List String) → List (List String)
  | _, [], lines => lines
  | j, c :: rest, lines => newlineLoop n (j + 1) rest (newlineStep n lines j c)

/-- The `extra_lines` grid produced by `_newline_split` for one row,
starting from the single all-empty line `[""] * len(row)`. -/
def newlineGrid (row : List String) : List (List String) :=
  newlineLoop row.length 0 row [List.replicate row.length ""]

/-- The tail of `_newline_split`: every grid line is appended followed by
a `NoRule`, and the trailing `NoRule` is popped. -/
def newlineSplit (row : List String) : List (TEntry String) :=
  ((newlineGrid row).foldr
    (fun l acc => TEntry.data l :: TEntry.rule .no :: acc) []).dropLast

/-- The number of sub-rows `_newline_split` produces for a row: the
largest line count of any cell (at least one). -/
def numLines (row : List String) : Nat :=
  (row.map fun c => (splitCell c).length).foldl max 1

/-- The specification's description of the multi-line split: one sub-row
per line index, each cell contributing its line at that index and an
empty string where it has no such line.  Stated for comparison with the
grid the source loop builds. -/
def newlineRowsSpec (row : List String) : List (List String) :=
  (List.range (numLines row)).map fun i => row.map fun c => (splitCell c).getD i ""

/-! ## The normalisation loop of `print_table` (lines 159–173) -/

/-- One iteration of the "New line treatment" loop: a rule entry is
collapsed with a directly preceding rule (the lower priority value wins),
a data row is split at line breaks and followed by a `MidRule`. -/
def processEntry (acc : List (TEntry String)) (e : TEntry String) :
    List (TEntry String) :=
  match e with
  | .rule r =>
      match acc.getLast? with
      | some (.rule last) =>
          acc.dropLast ++ [.rule (if r.priority < last.priority then r else last)]
      | _ => acc ++ [.rule r]
  | .data row => acc ++ newlineSplit row ++ [.rule .mid]

/-- The whole loop followed by `table_lines.pop()` (which raises on an
empty list). -/
def buildLines (tbl : List (TEntry String)) : Except String (List (TEntry String)) :=
  match tbl.foldl processEntry [] with
  | [] => .error "IndexError: pop from empty list"
  | l => .ok l.dropLast

/-! ## Assembling the row sequence (lines 130–157) -/

/-- The `head_col` argument: `None`, the string `"enumerate"`, or a list. -/
inductive HeadColSpec where
  | hnone
  | henum
  | hlist (l : List PyVal)
deriving DecidableEq, Repr

/-- Python `list.insert(i, x)`: indices past the end append. -/
def pyInsert {α : Type} : Nat → α → List α → List α
  | 0, x, l => x :: l
  | _ + 1, x, [] => [x]
  | n + 1, x, a :: l => a :: pyInsert n x l

/-- The `head_col` insertion loop: each data row is prepended with the
next head-column cell (`next` raises `StopIteration` when the iterator is
exhausted); rule markers are skipped. -/
def insertHeadCol : List String → List (TEntry String) → Except String (List (TEntry String))
  | _, [] => .ok []
  | hc, .rule r :: rest => (insertHeadCol hc rest).map (.rule r :: ·)
  | [], .data _ :: _ => .error "StopIteration"
  | h :: hs, .data row :: rest => (insertHeadCol hs rest).map (.data (h :: row) :: ·)

/-- Lines 130–157 of `print_table`: optional body transposition, cell
formatting, `head_col` resolution and insertion, `head_row` insertion
(with `top_left` when a head column exists), and the unconditional
`HeadRule` insertion at index 1 unless `omit_headrule` is set. -/
def assembleTable (table : List (TEntry PyVal)) (headCol : HeadColSpec)
    (headRow : Option (List PyVal)) (topLeft : String) (formatter : Formatter)
    (omitHeadrule : Bool) (transposeData : Bool) :
    Except String (List (TEntry String)) := do
  let table := if transposeData then
      (transposeFill (PyVal.vstr "") (cleanTable table).1).map TEntry.data
    else table
  let clean := (cleanTable table).1
  let tbl := applyFormat pyFormat formatter table
  let headCol2 : Option (List PyVal) := match headCol with
    | .hnone => none
    | .henum => some ((List.range clean.length).map fun i => PyVal.vint (i + 1))
    | .hlist l => some l
  let tbl ← match headCol2 with
    | none => pure tbl
    | some hc => insertHeadCol (applyFormatRow pyFormat .fnone hc) tbl
  let tbl := match headRow with
    | none => tbl
    | some hr =>
        let hrs := applyFormatRow pyFormat .fnone hr
        .data (if headCol2.isSome then topLeft :: hrs else hrs) :: tbl
  pure (if omitHeadrule then tbl else pyInsert 1 (.rule .head) tbl)

/-! ## Layout and rendering (lines 174–209) -/

/-- `for i, rule in rule_dict.items(): table.insert(i, rule)`. -/
def reinsertRules (tbl : List (TEntry String)) (rd : List (Nat × Rule)) :
    List (TEntry String) :=
  rd.foldl (fun t p => pyInsert p.1 (.rule p.2) t) tbl

/-- Lines 174–188 of `print_table`: strip the rules, transpose, apply the
replacement map, compute the (style-adjusted) column widths and the
alignments, pad the cells, transpose back and reinsert the rules.
Returns the adjusted widths, the alignments and the final row sequence. -/
def layoutTable (k : StyleKind) (align : AlignSpec)
    (replacement : Option (List (String × String))) (tableLines : List (TEntry String)) :
    Except String (List Nat × Option (List (Option String)) × List (TEntry String)) := do
  let p := cleanTable tableLines
  let cols := transposeFill "" p.1
  let cols := match replacement with
    | none => cols
    | some repl => replaceTable repl cols
  let ws ← findColWidth cols
  let al := getAlignments cols align
  let ws := styleModify k ws al
  let cols := alignTable al cols ws
  let rowMajor := transposeFill "" cols
  pure (ws, al, reinsertRules (rowMajor.map TEntry.data) p.2)

/-- One iteration of the `for row in table` rendering loop of
`print_table`: a data row goes through `style.row`, a rule marker through
`style.rule` and is skipped when that returns `None`. -/
def renderStep (k : StyleKind) (ws : List Nat) (al : Option (List (Option String)))
    (acc : List String) (e : TEntry String) : Except String (List String) :=
  match e with
  | .data row => do
      let s ← rowRender (styleCfg k) row
      pure (acc ++ [s])
  | .rule r => do
      let s? ← styleRule k ws al r
      pure (acc ++ s?.toList)

/-- Lines 189–205 of `print_table`: the optional caption line, the
style's `TopRule`, the rows and surviving rules, and the style's
`BotRule`; rules whose rendering is `None` are skipped. -/
def renderTable (k : StyleKind) (caption : Option String) (ws : List Nat)
    (al : Option (List (Option String))) (tbl : List (TEntry String)) :
    Except String (List String) := do
  let capLines := match caption with
    | none => []
    | some c => [c]
  let topRule ← styleRule k ws al .top
  let body ← tbl.foldlM (renderStep k ws al) ([] : List String)
  let botRule ← styleRule k ws al .bot
  pure (capLines ++ topRule.toList ++ body ++ botRule.toList)

/-- `print_table` (without the output sink): the list `formatted_lines`
handed to `_output_table` and returned when `return_lines` is set, or the
exception the call raises. -/
def printTable (k : StyleKind) (table : List (TEntry PyVal)) (headCol : HeadColSpec)
    (headRow : Option (List PyVal)) (topLeft : String) (align : AlignSpec)
    (caption : Option String) (formatter : Formatter) (omitHeadrule : Bool)
    (replacement : Option (List (String × String))) (transposeData : Bool) :
    Except String (List String) := do
  let tbl ← assembleTable table headCol headRow topLeft formatter omitHeadrule transposeData
  let tableLines ← buildLines tbl
  let l ← layoutTable k align replacement tableLines
  renderTable k caption l.1 l.2.1 l.2.2

/-! ## Specification-side helper: merging aligned rows back -/

/-- Replacing the data rows of a row sequence by new rows in order while
keeping every rule marker in place — the intended effect of stripping the
rules with `_clean_table` and re-inserting them index by index. -/
def mergeBack {α β : Type} : List (TEntry α) → List (List β) → List (TEntry β)
  | [], _ => []
  | .rule r :: rest, rows => .rule r :: mergeBack rest rows
  | .data _ :: _, [] => []
  | .data _ :: rest, row :: rows => .data row :: mergeBack rest rows

/-! ## Decidability of result comparison -/

instance {ε α : Type} [DecidableEq ε] [DecidableEq α] : DecidableEq (Except ε α) := fun a b =>
  match a, b with
  | .ok x, .ok y => if h : x = y then .isTrue (by rw [h]) else .isFalse (by simp [h])
  | .error x, .error y => if h : x = y then .isTrue (by rw [h]) else .isFalse (by simp [h])
  | .ok _, .error _ => .isFalse (by simp)
  | .error _, .ok _ => .isFalse (by simp)

/-! ## Claim C1: the CSV scenario -/

/-- Claim C1, stated as in the specification, is false: with the default
left alignment, `print_table([["a",1],["b",2]], head_row=["Name","Val"],
style="csv", return_lines=True)` does not return the lines
`"Name,Val"`, `"a,1"`, `"b,2"` — the data cells are padded to the column
widths set by the longer header cells. -/
theorem c1_csv_scenario_counterexample :
    printTable .scsv [.data [.vstr "a", .vint 1], .data [.vstr "b", .vint 2]] .hnone
      (some [.vstr "Name", .vstr "Val"]) "" (.astr "l") none .fnone false none false
      ≠ .ok ["Name,Val", "a,1", "b,2"] := by
  decide

/-- Claim C1 amended: the call returns exactly the three lines
`"Name,Val"`, `"a   ,1  "`, `"b   ,2  "` — the header line followed by
the two data lines whose cells are left-aligned and space-padded to the
column widths 4 and 3 determined by the header cells. -/
theorem c1_csv_scenario_amended :
    printTable .scsv [.data [.vstr "a", .vint 1], .data [.vstr "b", .vint 2]] .hnone
      (some [.vstr "Name", .vstr "Val"]) "" (.astr "l") none .fnone false none false
      = .ok ["Name,Val", "a   ,1  ", "b   ,2  "] := by
  decide

/-! ## Claim C8: the CSV round trip -/

/-- Claim C8: `print_table(table=[[1,2],[3,4]], head_row=["A","B"],
style="csv", return_lines=True)` returns `"A,B"`, `"1,2"`, `"3,4"`, and
splitting each returned line on the item separator `","` recovers exactly
the string-formatted input. -/
theorem c8_csv_roundtrip :
    printTable .scsv [.data [.vint 1, .vint 2], .data [.vint 3, .vint 4]] .hnone
      (some [.vstr "A", .vstr "B"]) "" (.astr "l") none .fnone false none false
      = .ok ["A,B", "1,2", "3,4"]
    ∧ ["A,B", "1,2", "3,4"].map (pySplit ',')
      = [["A", "B"], ["1", "2"], ["3", "4"]] := by
  exact ⟨by decide, by decide⟩

/-! ## Claim C6: the nested-list formatter -/

/-- Claim C6 names the documented behaviour, but the code drops it: with
the nested-list formatter `[[":.2f"]]`, `_apply_format` concatenates
`"{"` with the inner list, which raises `TypeError`; the `except` branch
replaces every cell by `str(entry)`.  The cell `1` renders as `"1"`
although its individual template `":.2f"` would render `"1.00"`. -/
theorem c6_nested_formatter_fallback :
    applyFormatRow pyFormat (.flist [.flist [":.2f"]]) [.vint 1] = ["1"]
    ∧ pyFormat ":.2f" (.vint 1) = some "1.00"
    ∧ printTable .scsv [.data [.vint 1]] .hnone none "" (.astr "l") none
        (.flist [.flist [":.2f"]]) false none false = .ok ["1,"]
    ∧ printTable .scsv [.data [.vint 1]] .hnone none "" (.astr "l") none
        (.fstr ":.2f") false none false = .ok ["1.00,"] := by
  exact ⟨by decide, by decide, by decide, by decide⟩

/-! ## Claim C9: the head rule is inserted even without a header row -/

/-- Claim C9: with `head_row=None` and `omit_headrule=False`,
`print_table` still executes `table.insert(1, rules.HeadRule())`, so the
`HeadRule` lands after the first data row; `insert` at index 1 places the
marker between the first and second entries, and the `latex` and
`markdown` styles then draw their head separator between the renderings
of the first and second data rows of a headerless table. -/
theorem c9_headrule_without_headrow :
    (∀ (fm : Formatter) (e1 e2 : TEntry PyVal) (rest : List (TEntry PyVal)),
      assembleTable (e1 :: e2 :: rest) .hnone none "" fm false false
        = .ok (pyInsert 1 (.rule .head) (applyFormat pyFormat fm (e1 :: e2 :: rest))))
    ∧ (∀ (x y : TEntry String) (l : List (TEntry String)),
        pyInsert 1 (TEntry.rule .head) (x :: y :: l) = x :: TEntry.rule .head :: y :: l)
    ∧ printTable .slatex [.data [.vstr "a"], .data [.vstr "b"]] .hnone none ""
        (.astr "l") none .fnone false none false
        = .ok ["\\toprule", "a&\\\\", "\\midrule", "b&\\\\", "\\bottomrule"]
    ∧ printTable .smarkdown [.data [.vstr "a"], .data [.vstr "b"]] .hnone none ""
        (.astr "l") none .fnone false none false
        = .ok ["|a   ||", "|:---||", "|b   ||"] := by
  refine ⟨fun fm e1 e2 rest => rfl, fun x y l => rfl, by decide, by decide⟩

/-! ## Claim C7: formatting errors are recovered per cell -/

/-- Claim C7: whenever applying a template to a cell value fails (the
model of `("{" + t + "}").format(v)` returns `none`), the `except` branch
of `_apply_format` makes that cell `str(value)`, the surrounding cells
are still formatted with the template, and `print_table` completes
normally — shown concretely for `":.2f"` applied to the string `"a"`. -/
theorem c7_format_error_recovery :
    (∀ (fmt : String → PyVal → Option String) (t : String) (v : PyVal),
      fmt t v = none →
      formatCell fmt t v = pyStr v
      ∧ ∀ (pre post : List PyVal),
          applyFormatRow fmt (.fstr t) (pre ++ v :: post)
            = pre.map (formatCell fmt t) ++ pyStr v :: post.map (formatCell fmt t))
    ∧ printTable .scsv [.data [.vstr "a", .vint 1]] .hnone none "" (.astr "l") none
        (.fstr ":.2f") false none false = .ok ["a,1.00"] := by
  constructor
  · intro fmt t v h
    have hcell : formatCell fmt t v = pyStr v := by
      unfold formatCell
      rw [h]
    refine ⟨hcell, fun pre post => ?_⟩
    simp [applyFormatRow, hcell]
  · decide

/-- Witness for C7 at the concrete format model: `":.2f"` fails on the
string `"a"`, and the row around it is still formatted. -/
theorem c7_format_error_recovery_witness :
    pyFormat ":.2f" (.vstr "a") = none
    ∧ applyFormatRow pyFormat (.fstr ":.2f") ([.vint 1] ++ .vstr "a" :: [.vint 2])
        = [PyVal.vint 1].map (formatCell pyFormat ":.2f")
          ++ pyStr (.vstr "a") :: [PyVal.vint 2].map (formatCell pyFormat ":.2f") :=
  ⟨by decide,
    (c7_format_error_recovery.1 pyFormat ":.2f" (.vstr "a") (by decide)).2 [.vint 1] [.vint 2]⟩

/-! ## Claim C5: markdown minimum column widths -/

/-- Claim C5: `markdown.modify_col_widths` floors every column width at
the per-alignment minimum — 4 for left, 5 for center, 3 for `None` — and
a column holding only `"x"` with center alignment gets width 5, whose
head-separator cell `":---:"` is exactly 5 characters. -/
theorem c5_markdown_min_widths :
    (∀ (ws : List Nat) (al : List (Option String)) (i w : Nat),
      ws.get? i = some w →
      (al.get? i = some (some "l") →
        (styleModify .smarkdown ws (some al)).get? i = some (max 4 w))
      ∧ (al.get? i = some (some "c") →
        (styleModify .smarkdown ws (some al)).get? i = some (max 5 w))
      ∧ (al.get? i = some none →
        (styleModify .smarkdown ws (some al)).get? i = some (max 3 w)))
    ∧ findColWidth [["x"]] = .ok [1]
    ∧ styleModify .smarkdown [1] (some [some "c"]) = [5]
    ∧ styleRule .smarkdown [5] (some [some "c"]) .head = .ok (some "|:---:||")
    ∧ (":---:").length = 5 := by
  refine ⟨?_, by decide, by decide, by decide, by decide⟩
  intro ws al i w hw
  have key : ∀ a : Option String, al.get? i = some a →
      (styleModify .smarkdown ws (some al)).get? i = some (mdMinWidth a w) := by
    intro a ha
    have hz : (ws.zip al).get? i = some (w, a) :=
      (List.get?_zip_eq_some ws al (w, a) i).2 ⟨hw, ha⟩
    simp only [styleModify, mdModifyColWidths, List.get?_map, hz, Option.map_some']
  exact ⟨fun h => key (some "l") h, fun h => key (some "c") h, fun h => key none h⟩

/-- Witness for C5 at a one-column table: width 1 with center alignment
is floored to 5. -/
theorem c5_markdown_min_widths_witness :
    ([1] : List Nat).get? 0 = some 1
    ∧ [some "c"].get? 0 = some (some "c")
    ∧ (styleModify .smarkdown [1] (some [some "c"])).get? 0 = some (max 5 1) :=
  ⟨rfl, rfl, (c5_markdown_min_widths.1 [1] [some "c"] 0 1 rfl).2.1 rfl⟩

/-! ## Lemmas: widths, padding, alignment -/

theorem spaces_length (n : Nat) : (spaces n).length = n := by
  simp [spaces, String.length]

theorem padCell_length (code : String) (w : Nat) (s : String) :
    (padCell code w s).length = max w s.length := by
  unfold padCell
  split
  · simp only [String.length_append, spaces_length]
    omega
  · split
    · simp only [String.length_append, spaces_length]
      omega
    · simp only [String.length_append, spaces_length]
      omega

theorem foldl_max_init_le (xs : List Nat) (a : Nat) : a ≤ xs.foldl max a := by
  induction xs generalizing a with
  | nil => exact le_refl a
  | cons x xs ih => exact le_trans (le_max_left a x) (ih (max a x))

theorem foldl_max_le_of_mem {xs : List Nat} {x : Nat} (h : x ∈ xs) :
    ∀ a, x ≤ xs.foldl max a := by
  induction xs with
  | nil => cases h
  | cons y ys ih =>
    intro a
    rcases List.mem_cons.1 h with rfl | hm
    · exact le_trans (le_max_right a x) (foldl_max_init_le ys (max a x))
    · exact ih hm (max a y)

theorem pyMaxLen_ok_le {col : List String} {m : Nat} (h : pyMaxLen col = .ok m) :
    ∀ e ∈ col, e.length ≤ m := by
  match col with
  | [] => simp [pyMaxLen] at h
  | x :: xs =>
    have hm : (xs.map String.length).foldl max x.length = m := by
      rw [List.foldl_map]
      simpa [pyMaxLen] using h
    intro e he
    rcases List.mem_cons.1 he with rfl | hmem
    · exact hm ▸ foldl_max_init_le _ _
    · exact hm ▸ foldl_max_le_of_mem (List.mem_map_of_mem String.length hmem) _

theorem pyMaxLen_isOk {col : List String} (h : col ≠ []) :
    ∃ m, pyMaxLen col = .ok m := by
  match col with
  | [] => exact absurd rfl h
  | x :: xs => exact ⟨_, rfl⟩

theorem findColWidth_cons_eq (col : List String) (rest : List (List String)) :
    findColWidth (col :: rest)
      = Except.bind (pyMaxLen col) fun w =>
          Except.bind (findColWidth rest) fun ws => Except.ok (w :: ws) := rfl

theorem findColWidth_ok_cons {col : List String} {rest : List (List String)}
    {ws : List Nat} (h : findColWidth (col :: rest) = .ok ws) :
    ∃ w ws2, pyMaxLen col = .ok w ∧ findColWidth rest = .ok ws2 ∧ ws = w :: ws2 := by
  rw [findColWidth_cons_eq] at h
  cases h1 : pyMaxLen col with
  | error e => rw [h1] at h; simp [Except.bind] at h
  | ok w =>
    rw [h1] at h
    cases h2 : findColWidth rest with
    | error e => rw [h2] at h; simp [Except.bind] at h
    | ok ws2 =>
      rw [h2] at h
      simp only [Except.bind, Except.ok.injEq] at h
      exact ⟨w, ws2, rfl, rfl, h.symm⟩

theorem findColWidth_ok_length : ∀ {cols : List (List String)} {ws : List Nat},
    findColWidth cols = .ok ws → ws.length = cols.length := by
  intro cols
  induction cols with
  | nil =>
    intro ws h
    cases h
    rfl
  | cons col rest ih =>
    intro ws h
    obtain ⟨w, ws2, _, h2, rfl⟩ := findColWidth_ok_cons h
    simp [ih h2]

theorem findColWidth_ok_le : ∀ {cols : List (List String)} {ws : List Nat},
    findColWidth cols = .ok ws →
    ∀ (j : Nat) (col : List String) (w : Nat),
      cols.get? j = some col → ws.get? j = some w → ∀ e ∈ col, e.length ≤ w := by
  intro cols
  induction cols with
  | nil =>
    intro ws h j col w hc
    simp at hc
  | cons c rest ih =>
    intro ws h j col w hc hw
    obtain ⟨w0, ws2, h1, h2, rfl⟩ := findColWidth_ok_cons h
    match j with
    | 0 =>
      simp only [List.get?_cons_zero, Option.some.injEq] at hc hw
      subst hc
      subst hw
      exact pyMaxLen_ok_le h1
    | j + 1 =>
      exact ih h2 j col w (by simpa using hc) (by simpa using hw)

theorem findColWidth_isOk : ∀ {cols : List (List String)},
    (∀ col ∈ cols, col ≠ []) → ∃ ws, findColWidth cols = .ok ws := by
  intro cols
  induction cols with
  | nil => exact fun _ => ⟨[], rfl⟩
  | cons c rest ih =>
    intro h
    obtain ⟨m, hm⟩ := pyMaxLen_isOk (h c (List.mem_cons_self c rest))
    obtain ⟨ws, hws⟩ := ih fun col hc => h col (List.mem_cons_of_mem c hc)
    exact ⟨m :: ws, by rw [findColWidth_cons_eq, hm, hws]; rfl⟩

theorem getAlignments_ne_anone (cols : List (List String)) {a : AlignSpec}
    (h : a ≠ .anone) :
    ∃ al, getAlignments cols a = some al ∧ cols.length ≤ al.length := by
  cases a with
  | anone => exact absurd rfl h
  | astr s => exact ⟨_, rfl, by simp⟩
  | alist l => exact ⟨_, rfl, by simp⟩

theorem mdMinWidth_ge (a : Option String) (w : Nat) : w ≤ mdMinWidth a w := by
  cases a with
  | none => exact le_max_right 3 w
  | some s =>
    simp only [mdMinWidth]
    split
    · exact le_max_right 5 w
    · exact le_max_right 4 w

theorem styleModify_get?_ge {k : StyleKind} {ws : List Nat}
    {al : List (Option String)} {j w w2 : Nat} {aj : Option String}
    (hw : ws.get? j = some w) (ha : al.get? j = some aj)
    (h2 : (styleModify k ws (some al)).get? j = some w2) : w ≤ w2 := by
  cases k with
  | smarkdown =>
    simp only [styleModify, mdModifyColWidths, List.get?_map] at h2
    have hz : (ws.zip al).get? j = some (w, aj) :=
      (List.get?_zip_eq_some ws al (w, aj) j).2 ⟨hw, ha⟩
    rw [hz] at h2
    simp only [Option.map_some', Option.some.injEq] at h2
    exact h2 ▸ mdMinWidth_ge aj w
  | scsv | stsv | slatex | stest =>
    simp only [styleModify] at h2
    rw [hw] at h2
    injection h2 with h3
    exact le_of_eq h3

theorem alignTable_get? {al : List (Option String)} {cols : List (List String)}
    {ws2 : List Nat} {j : Nat} {col2 : List String}
    (h : (alignTable (some al) cols ws2).get? j = some col2) :
    ∃ aj colj w2, al.get? j = some aj ∧ cols.get? j = some colj
      ∧ ws2.get? j = some w2 ∧ col2 = colj.map (padCell (alignCode aj) w2) := by
  simp only [alignTable] at h
  rw [List.get?_map] at h
  obtain ⟨p, hp, hcol⟩ := Option.map_eq_some'.1 h
  obtain ⟨hp1, hp2⟩ := (List.get?_zip_eq_some _ _ p j).1 hp
  obtain ⟨hp21, hp22⟩ := (List.get?_zip_eq_some _ _ p.2 j).1 hp2
  rw [List.get?_map] at hp1
  obtain ⟨aj, haj, hcode⟩ := Option.map_eq_some'.1 hp1
  exact ⟨aj, p.2.1, p.2.2, haj, hp21, hp22, by rw [← hcol, hcode]⟩

/-! ## Lemmas: stripping and re-inserting rule markers -/

theorem cleanTableAux_fst {α : Type} : ∀ (tbl : List (TEntry α)) (n : Nat),
    (cleanTableAux n tbl).1 = tbl.filterMap entryData? := by
  intro tbl
  induction tbl with
  | nil => intro n; rfl
  | cons e rest ih =>
    intro n
    cases e with
    | data r => simp [cleanTableAux, ih, entryData?]
    | rule r => simp [cleanTableAux, ih, entryData?]

theorem cleanTableAux_snd_shift {α : Type} : ∀ (tbl : List (TEntry α)) (n : Nat),
    (cleanTableAux (n + 1) tbl).2
      = ((cleanTableAux n tbl).2).map fun p => (p.1 + 1, p.2) := by
  intro tbl
  induction tbl with
  | nil => intro n; rfl
  | cons e rest ih =>
    intro n
    cases e with
    | data r => simpa [cleanTableAux] using ih (n + 1)
    | rule r => simpa [cleanTableAux] using ih (n + 1)

theorem pyInsert_succ_cons {α : Type} (n : Nat) (x a : α) (l : List α) :
    pyInsert (n + 1) x (a :: l) = a :: pyInsert n x l := rfl

theorem cleanTable_fst_rule {α : Type} (r : Rule) (rest : List (TEntry α)) :
    (cleanTable (TEntry.rule r :: rest)).1 = (cleanTable rest).1 := by
  rw [cleanTable, cleanTable, cleanTableAux_fst, cleanTableAux_fst]
  simp [List.filterMap_cons, entryData?]

theorem cleanTable_fst_data {α : Type} (d : List α) (rest : List (TEntry α)) :
    (cleanTable (TEntry.data d :: rest)).1 = d :: (cleanTable rest).1 := by
  rw [cleanTable, cleanTable, cleanTableAux_fst, cleanTableAux_fst]
  simp [List.filterMap_cons, entryData?]

theorem cleanTable_snd_rule {α : Type} (r : Rule) (rest : List (TEntry α)) :
    (cleanTable (TEntry.rule r :: rest)).2
      = (0, r) :: ((cleanTable rest).2).map fun p => (p.1 + 1, p.2) := by
  have hs := cleanTableAux_snd_shift rest 0
  show (cleanTableAux 0 (TEntry.rule r :: rest)).2 = _
  rw [cleanTableAux]
  simpa using hs

theorem cleanTable_snd_data {α : Type} (d : List α) (rest : List (TEntry α)) :
    (cleanTable (TEntry.data d :: rest)).2
      = ((cleanTable rest).2).map fun p => (p.1 + 1, p.2) := by
  have hs := cleanTableAux_snd_shift rest 0
  show (cleanTableAux 0 (TEntry.data d :: rest)).2 = _
  rw [cleanTableAux]
  simpa using hs

theorem reinsertRules_shift : ∀ (rd : List (Nat × Rule)) (x : TEntry String)
    (l : List (TEntry String)),
    reinsertRules (x :: l) (rd.map fun p => (p.1 + 1, p.2))
      = x :: reinsertRules l rd := by
  intro rd
  induction rd with
  | nil => intro x l; rfl
  | cons p rd ih =>
    intro x l
    simp only [List.map_cons, reinsertRules, List.foldl_cons, pyInsert_succ_cons]
    exact ih x (pyInsert p.1 (.rule p.2) l)

theorem reinsert_eq_mergeBack : ∀ (tbl : List (TEntry String)) (rows : List (List String)),
    rows.length = (cleanTable tbl).1.length →
    reinsertRules (rows.map TEntry.data) (cleanTable tbl).2 = mergeBack tbl rows := by
  intro tbl
  induction tbl with
  | nil =>
    intro rows h
    have : rows = [] := List.length_eq_zero.mp (by simpa [cleanTable, cleanTableAux] using h)
    subst this
    rfl
  | cons e rest ih =>
    intro rows h
    cases e with
    | rule r =>
      rw [cleanTable_snd_rule]
      show reinsertRules (pyInsert 0 (TEntry.rule r) (rows.map TEntry.data))
          (((cleanTable rest).2).map fun p => (p.1 + 1, p.2)) = _
      rw [show pyInsert 0 (TEntry.rule r) (rows.map TEntry.data)
            = TEntry.rule r :: rows.map TEntry.data from rfl]
      rw [reinsertRules_shift]
      rw [ih rows (by rw [h, cleanTable_fst_rule])]
      rfl
    | data d =>
      rw [cleanTable_fst_data] at h
      match rows with
      | [] => simp at h
      | row :: rows2 =>
        rw [cleanTable_snd_data]
        simp only [List.map_cons]
        rw [reinsertRules_shift]
        rw [ih rows2 (by simpa using h)]
        rfl

theorem mergeBack_filterMap_rule {α : Type} :
    ∀ (tbl : List (TEntry α)) (rows : List (List String)),
    rows.length = (cleanTable tbl).1.length →
    (mergeBack tbl rows).filterMap entryRule? = tbl.filterMap entryRule? := by
  intro tbl
  induction tbl with
  | nil => intro rows h; rfl
  | cons e rest ih =>
    intro rows h
    cases e with
    | rule r =>
      rw [cleanTable_fst_rule] at h
      simp [mergeBack, entryRule?, ih rows h]
    | data d =>
      rw [cleanTable_fst_data] at h
      match rows with
      | [] => simp at h
      | row :: rows2 =>
        simp [mergeBack, entryRule?, ih rows2 (by simpa using h)]

theorem mergeBack_filterMap_data {α : Type} :
    ∀ (tbl : List (TEntry α)) (rows : List (List String)),
    rows.length = (cleanTable tbl).1.length →
    (mergeBack tbl rows).filterMap entryData? = rows := by
  intro tbl
  induction tbl with
  | nil =>
    intro rows h
    have : rows = [] := List.length_eq_zero.mp (by simpa [cleanTable, cleanTableAux] using h)
    subst this
    rfl
  | cons e rest ih =>
    intro rows h
    cases e with
    | rule r =>
      rw [cleanTable_fst_rule] at h
      simp [mergeBack, entryData?, ih rows h]
    | data d =>
      rw [cleanTable_fst_data] at h
      match rows with
      | [] => simp at h
      | row :: rows2 =>
        simp [mergeBack, entryData?, ih rows2 (by simpa using h)]

/-! ## Claim C2: the column alignment invariant -/

/-- Claim C2: for non-empty columns and any alignment specification other
than `None`, the width computation succeeds and after the layout stage
every cell of a column has length equal to that column's style-adjusted
width (the column maximum passed through `modify_col_widths`); the rule
markers that `_clean_table` removed are re-inserted unchanged. -/
theorem c2_alignment_invariant :
    (∀ (k : StyleKind) (cols : List (List String)) (a : AlignSpec),
      (∀ col ∈ cols, col ≠ []) → a ≠ .anone →
      ∃ ws, findColWidth cols = .ok ws ∧
        ∀ (j : Nat) (col2 : List String),
          (alignTable (getAlignments cols a) cols
            (styleModify k ws (getAlignments cols a))).get? j = some col2 →
          ∀ cell ∈ col2,
            cell.length = (styleModify k ws (getAlignments cols a)).getD j 0)
    ∧ (∀ (tbl : List (TEntry String)) (rows : List (List String)),
        rows.length = (cleanTable tbl).1.length →
        (reinsertRules (rows.map TEntry.data) (cleanTable tbl).2).filterMap entryRule?
          = tbl.filterMap entryRule?) := by
  constructor
  · intro k cols a hne hano
    obtain ⟨ws, hws⟩ := findColWidth_isOk hne
    refine ⟨ws, hws, ?_⟩
    obtain ⟨al, hal, hlen⟩ := getAlignments_ne_anone cols hano
    rw [hal]
    intro j col2 hcol2 cell hcell
    obtain ⟨aj, colj, w2, haj, hcolj, hw2, rfl⟩ := alignTable_get? hcol2
    obtain ⟨c, hc, rfl⟩ := List.mem_map.1 hcell
    have hjlt : j < cols.length := by
      have := List.get?_eq_some.1 hcolj
      exact this.1
    have hwsome : ∃ w, ws.get? j = some w := by
      have hlt : j < ws.length := by rw [findColWidth_ok_length hws]; exact hjlt
      exact ⟨ws.get ⟨j, hlt⟩, List.get?_eq_get hlt⟩
    obtain ⟨w, hw⟩ := hwsome
    have hle1 : c.length ≤ w := findColWidth_ok_le hws j colj w hcolj hw c hc
    have hle2 : w ≤ w2 := styleModify_get?_ge hw haj hw2
    rw [padCell_length, List.getD_eq_get?, hw2]
    simp only [Option.getD_some]
    omega
  · intro tbl rows h
    rw [reinsert_eq_mergeBack tbl rows h]
    exact mergeBack_filterMap_rule tbl rows h

/-- Witness for C2: the markdown style on the single column `["x"]` with
center alignment pads the cell to the adjusted width 5. -/
theorem c2_alignment_invariant_witness :
    (∀ col ∈ [["x"]], col ≠ []) ∧ (AlignSpec.astr "c") ≠ .anone
    ∧ ∃ ws, findColWidth [["x"]] = .ok ws ∧
        ∀ (j : Nat) (col2 : List String),
          (alignTable (getAlignments [["x"]] (.astr "c")) [["x"]]
            (styleModify .smarkdown ws (getAlignments [["x"]] (.astr "c")))).get? j
            = some col2 →
          ∀ cell ∈ col2,
            cell.length
              = (styleModify .smarkdown ws (getAlignments [["x"]] (.astr "c"))).getD j 0 :=
  ⟨by decide, by decide,
    c2_alignment_invariant.1 .smarkdown [["x"]] (.astr "c") (by decide) (by decide)⟩

/-! ## Lemmas: the `_newline_split` grid -/

theorem set_range_map {α : Type} (L k : Nat) (g : Nat → α) (x : α) :
    ((List.range L).map g).set k x
      = (List.range L).map fun i => if i = k then x else g i := by
  apply List.ext_getElem
  · simp
  intro i h1 h2
  simp only [List.getElem_set, List.getElem_map, List.getElem_range]
  by_cases h : k = i
  · rw [if_pos h, if_pos h.symm]
  · rw [if_neg h, if_neg (Ne.symm h)]

theorem getD_range_map {α : Type} (L k : Nat) (g : Nat → α) (d : α) (hk : k < L) :
    ((List.range L).map g).getD k d = g k := by
  rw [List.getD_eq_get?, List.get?_map, List.get?_range hk]
  rfl

theorem setCell_range_map (L k j : Nat) (g : Nat → List String) (v : String)
    (hk : k < L) :
    setCell ((List.range L).map g) k j v
      = (List.range L).map fun i => if i = k then (g k).set j v else g i := by
  unfold setCell
  rw [getD_range_map L k g [] hk, set_range_map L k g ((g k).set j v)]

theorem setFold_range_map (j : Nat) : ∀ (vs : List String) (k L : Nat)
    (g : Nat → List String), k + vs.length ≤ L →
    (List.enumFrom k vs).foldl (fun ls p => setCell ls p.1 j p.2)
        ((List.range L).map g)
      = (List.range L).map fun i =>
          if k ≤ i ∧ i < k + vs.length then (g i).set j (vs.getD (i - k) "")
          else g i := by
  intro vs
  induction vs with
  | nil =>
    intro k L g hk
    simp only [List.enumFrom, List.foldl_nil]
    apply List.map_congr_left
    intro i _
    rw [if_neg (by simp only [List.length_nil, Nat.add_zero]; omega)]
  | cons v vs ih =>
    intro k L g hk
    simp only [List.enumFrom_cons, List.foldl_cons, List.length_cons] at hk ⊢
    rw [setCell_range_map L k j g v (by omega)]
    rw [ih (k + 1) L _ (by omega)]
    apply List.map_congr_left
    intro i hi
    by_cases h1 : i = k
    · subst h1
      have hc1 : ¬(i + 1 ≤ i ∧ i < i + 1 + vs.length) := by omega
      have hc2 : i ≤ i ∧ i < i + (vs.length + 1) := by omega
      rw [if_neg hc1, if_pos rfl, if_pos hc2]
      simp
    · by_cases h2 : k + 1 ≤ i ∧ i < k + 1 + vs.length
      · have hc2 : k ≤ i ∧ i < k + (vs.length + 1) := by omega
        rw [if_pos h2, if_neg h1, if_pos hc2]
        have hik : i - k = (i - (k + 1)) + 1 := by omega
        rw [hik, List.getD_cons_succ]
      · have hc2 : ¬(k ≤ i ∧ i < k + (vs.length + 1)) := by omega
        rw [if_neg h2, if_neg h1, if_neg hc2]

theorem growTo_range_map (n L m : Nat) (g : Nat → List String) (hLm : L ≤ m)
    (hg : ∀ i, L ≤ i → i < m → g i = List.replicate n "") :
    growTo ((List.range L).map g) m n = (List.range m).map g := by
  unfold growTo
  simp only [List.length_map, List.length_range]
  have hr : List.range m = List.range L ++ (List.range (m - L)).map (L + ·) := by
    rw [← List.range_add]
    congr 1
    omega
  rw [hr, List.map_append, List.map_map]
  congr 1
  apply List.map_congr_left
  intro i hi
  have hilt := List.mem_range.1 hi
  exact (hg (L + i) (by omega) (by omega)).symm

theorem splice_replicate (pre : List String) (n : Nat) (hn : pre.length < n) :
    pre ++ List.replicate (n - pre.length) ""
      = pre ++ "" :: List.replicate (n - (pre.length + 1)) "" := by
  congr 1
  rw [show n - pre.length = (n - (pre.length + 1)) + 1 by omega]
  rfl

theorem set_splice (pre : List String) (n : Nat) (v : String)
    (hn : pre.length < n) :
    (pre ++ List.replicate (n - pre.length) "").set pre.length v
      = pre ++ v :: List.replicate (n - (pre.length + 1)) "" := by
  rw [List.set_append]
  rw [if_neg (by omega)]
  rw [Nat.sub_self]
  congr 1
  rw [show n - pre.length = (n - (pre.length + 1)) + 1 by omega]
  rfl

theorem splitCell_length_pos (c : String) : 1 ≤ (splitCell c).length := by
  unfold splitCell pySplit
  generalize c.data = l
  generalize ([] : List Char) = acc
  induction l generalizing acc with
  | nil => simp [splitAux]
  | cons x xs ih =>
    rw [splitAux]
    split
    · simp
    · exact ih _

theorem splitAux_no_newline : ∀ (l acc : List Char), (∀ ch ∈ l, ch ≠ '\n') →
    splitAux '\n' l acc = [String.mk (acc.reverse ++ l)] := by
  intro l
  induction l with
  | nil => intro acc _; simp [splitAux]
  | cons x xs ih =>
    intro acc h
    rw [splitAux]
    rw [if_neg (h x (List.mem_cons_self x xs))]
    rw [ih (x :: acc) (fun ch hc => h ch (List.mem_cons_of_mem x hc))]
    simp

theorem splitCell_of_no_newline {c : String} (h : hasNewline c = false) :
    splitCell c = [c] := by
  unfold splitCell pySplit
  have hmem : ∀ ch ∈ c.data, ch ≠ '\n' := by
    intro ch hc he
    rw [hasNewline] at h
    rw [he] at hc
    rw [show c.data.contains '\n' = c.data.elem '\n' from rfl] at h
    rw [List.elem_iff.2 hc] at h
    cases h
  rw [splitAux_no_newline c.data [] hmem]
  simp

theorem newlineStep_grid (n : Nat) (done : List String) (c : String) (L : Nat)
    (hL : 1 ≤ L) (hbound : ∀ d ∈ done, (splitCell d).length ≤ L)
    (hn : done.length < n) :
    newlineStep n ((List.range L).map fun i =>
        done.map (fun x => (splitCell x).getD i "")
          ++ List.replicate (n - done.length) "") done.length c
      = (List.range (max L (splitCell c).length)).map fun i =>
          (done ++ [c]).map (fun x => (splitCell x).getD i "")
            ++ List.replicate (n - (done.length + 1)) "" := by
  have hpre : ∀ i : Nat, (done.map fun x => (splitCell x).getD i "").length
      = done.length := by
    intro i
    simp
  unfold newlineStep
  by_cases hnl : hasNewline c
  · rw [if_pos hnl]
    simp only [List.length_map, List.length_range]
    rw [growTo_range_map n L (max L (splitCell c).length) _ (le_max_left _ _) ?_]
    · have henum : (splitCell c).enum = List.enumFrom 0 (splitCell c) := rfl
      rw [henum, setFold_range_map done.length (splitCell c) 0 (max L (splitCell c).length)
        _ (by omega)]
      apply List.map_congr_left
      intro i hi
      by_cases hin : i < (splitCell c).length
      · rw [if_pos (by omega)]
        rw [show i - 0 = i from rfl]
        have := set_splice (done.map fun x => (splitCell x).getD i "") n
          ((splitCell c).getD i "") (by rw [hpre]; omega)
        rw [hpre] at this
        rw [this]
        simp [List.map_append]
      · rw [if_neg (by omega)]
        have hd : (splitCell c).getD i "" = "" :=
          List.getD_eq_default _ _ (by omega)
        have := splice_replicate (done.map fun x => (splitCell x).getD i "") n
          (by rw [hpre]; omega)
        rw [hpre] at this
        rw [this]
        simp only [List.map_append, List.map_singleton, List.append_assoc,
          List.singleton_append]
        rw [hd]
    · intro i hiL hilt
      have : ∀ d ∈ done, (splitCell d).getD i "" = "" := by
        intro d hd
        exact List.getD_eq_default _ _ (le_trans (hbound d hd) hiL)
      rw [List.map_congr_left this]
      rw [show (done.map fun _ => ("" : String)) = List.replicate done.length "" from
        by rw [List.map_const']]
      rw [← List.replicate_add]
      congr 1
      omega
  · rw [if_neg hnl]
    have hsc : splitCell c = [c] := splitCell_of_no_newline (by simpa using hnl)
    have hone : max L (splitCell c).length = L := by rw [hsc]; simpa using hL
    rw [hone]
    rw [setCell_range_map L 0 done.length _ c (by omega)]
    apply List.map_congr_left
    intro i hi
    by_cases h0 : i = 0
    · subst h0
      rw [if_pos rfl]
      have := set_splice (done.map fun x => (splitCell x).getD 0 "") n c
        (by rw [hpre]; omega)
      rw [hpre] at this
      rw [this]
      simp [List.map_append, hsc]
    · rw [if_neg h0]
      have hd : (splitCell c).getD i "" = "" := by
        rw [hsc]
        match i, h0 with
        | i + 1, _ => rfl
      have := splice_replicate (done.map fun x => (splitCell x).getD i "") n
        (by rw [hpre]; omega)
      rw [hpre] at this
      rw [this]
      simp only [List.map_append, List.map_singleton, List.append_assoc,
        List.singleton_append]
      rw [hd]

theorem newlineLoop_grid (n : Nat) : ∀ (rest done : List String) (L : Nat),
    1 ≤ L → (∀ d ∈ done, (splitCell d).length ≤ L) →
    n = done.length + rest.length →
    newlineLoop n done.length rest ((List.range L).map fun i =>
        done.map (fun x => (splitCell x).getD i "")
          ++ List.replicate (n - done.length) "")
      = (List.range ((rest.map fun c => (splitCell c).length).foldl max L)).map
          fun i => (done ++ rest).map (fun x => (splitCell x).getD i "")
            ++ List.replicate (n - (done ++ rest).length) "" := by
  intro rest
  induction rest with
  | nil =>
    intro done L h1 h2 h3
    simp [newlineLoop]
  | cons c rest ih =>
    intro done L h1 h2 h3
    rw [newlineLoop]
    rw [newlineStep_grid n done c L h1 h2 (by simp at h3; omega)]
    have hcast : done.length + 1 = (done ++ [c]).length := by simp
    have hgrid : (List.range (max L (splitCell c).length)).map
        (fun i => (done ++ [c]).map (fun x => (splitCell x).getD i "")
          ++ List.replicate (n - (done.length + 1)) "")
        = (List.range (max L (splitCell c).length)).map
          (fun i => (done ++ [c]).map (fun x => (splitCell x).getD i "")
            ++ List.replicate (n - (done ++ [c]).length) "") := by
      rw [← hcast]
    rw [hgrid]
    rw [hcast]
    rw [ih (done ++ [c]) (max L (splitCell c).length) (by omega) ?_ (by simp at h3 ⊢; omega)]
    · simp only [List.map_cons, List.foldl_cons, List.append_assoc, List.singleton_append]
    · intro d hd
      rcases List.mem_append.1 hd with hmem | hmem
      · exact le_trans (h2 d hmem) (le_max_left _ _)
      · rw [List.mem_singleton.1 hmem]
        exact le_max_right _ _

theorem newlineGrid_eq_spec (row : List String) :
    newlineGrid row = newlineRowsSpec row := by
  unfold newlineGrid newlineRowsSpec numLines
  have h0 : [List.replicate row.length ""]
      = (List.range 1).map fun i => ([] : List String).map
          (fun x => (splitCell x).getD i "") ++ List.replicate (row.length - 0) "" := by
    simp
  rw [h0]
  rw [show (0 : Nat) = ([] : List String).length from rfl]
  rw [newlineLoop_grid row.length row [] 1 (le_refl 1) (by simp) (by simp)]
  simp

theorem foldr_interleave_ne_nil (g : List (List String)) (x : List String) :
    ((x :: g).foldr (fun l acc => TEntry.data l :: TEntry.rule .no :: acc)
      ([] : List (TEntry String))) ≠ [] := by
  simp [List.foldr_cons]

theorem newlineSplit_eq_intersperse (row : List String) :
    newlineSplit row
      = List.intersperse (TEntry.rule .no) ((newlineGrid row).map TEntry.data) := by
  unfold newlineSplit
  generalize newlineGrid row = g
  induction g with
  | nil => rfl
  | cons x g ih =>
    match g with
    | [] => rfl
    | y :: g2 =>
      have hne : ((y :: g2).foldr
          (fun l acc => TEntry.data l :: TEntry.rule Rule.no :: acc)
          ([] : List (TEntry String))) ≠ [] := foldr_interleave_ne_nil g2 y
      rw [List.foldr_cons]
      rw [List.dropLast_cons_of_ne_nil (by simp)]
      rw [List.dropLast_cons_of_ne_nil hne]
      rw [ih]
      simp only [List.map_cons]
      rw [List.intersperse_cons₂]

/-! ## Claim C4: multi-line cells split into synchronized sub-rows -/

/-- Claim C4: a data row with an embedded line break is split into one
sub-row per line index (cells with fewer lines contributing empty
strings) with a `NoRule` between consecutive sub-rows, and the one-row
table `[["a\nb"]]` renders as the two lines of its cell with no rule line
between them. -/
theorem c4_newline_split :
    (∀ row : List String, (∃ c ∈ row, hasNewline c = true) →
      newlineSplit row
        = List.intersperse (TEntry.rule .no) ((newlineRowsSpec row).map TEntry.data))
    ∧ newlineSplit ["a\nb"]
        = [TEntry.data ["a"], TEntry.rule .no, TEntry.data ["b"]]
    ∧ printTable .scsv [.data [.vstr "a\nb"]] .hnone none "" (.astr "l") none .fnone
        false none false = .ok ["a,", "b,"] := by
  refine ⟨fun row _ => ?_, by decide, by decide⟩
  rw [newlineSplit_eq_intersperse, newlineGrid_eq_spec]

/-- Witness for C4 at the row `["a\nb"]`. -/
theorem c4_newline_split_witness :
    (∃ c ∈ ["a\nb"], hasNewline c = true)
    ∧ newlineSplit ["a\nb"]
        = List.intersperse (TEntry.rule .no)
            ((newlineRowsSpec ["a\nb"]).map TEntry.data) :=
  ⟨by decide, c4_newline_split.1 ["a\nb"] (by decide)⟩

/-! ## Lemmas: the rule-collapsing loop -/

theorem numLines_pos (row : List String) : 1 ≤ numLines row :=
  foldl_max_init_le _ 1

theorem newlineGrid_ne_nil (row : List String) : newlineGrid row ≠ [] := by
  rw [newlineGrid_eq_spec, newlineRowsSpec]
  have := numLines_pos row
  intro hc
  have := congrArg List.length hc
  simp at this
  omega

theorem interleave_head (g : List (List String)) (hg : g ≠ []) :
    ∃ r, (List.intersperse (TEntry.rule .no) (g.map TEntry.data)).head?
      = some (TEntry.data r) := by
  match g with
  | x :: g2 =>
    match g2 with
    | [] => exact ⟨x, rfl⟩
    | y :: g3 =>
      refine ⟨x, ?_⟩
      simp only [List.map_cons]
      rw [List.intersperse_cons₂]
      rfl

theorem chain_interleave (g : List (List String)) :
    List.Chain' (fun a b : TEntry String => ¬(a.isRule = true ∧ b.isRule = true))
      (List.intersperse (TEntry.rule .no) (g.map TEntry.data)) := by
  induction g with
  | nil => simp
  | cons x g ih =>
    match g with
    | [] => simp [List.intersperse_singleton]
    | y :: g2 =>
      simp only [List.map_cons] at ih ⊢
      rw [List.intersperse_cons₂]
      rw [List.chain'_cons']
      refine ⟨fun b hb => ?_, ?_⟩
      · simp only [List.head?_cons, Option.mem_def, Option.some.injEq] at hb
        rw [← hb]
        simp [TEntry.isRule]
      · rw [List.chain'_cons']
        refine ⟨fun b hb => ?_, ih⟩
        obtain ⟨r, hr⟩ := interleave_head (y :: g2) (by simp)
        simp only [List.map_cons] at hr
        rw [hr] at hb
        simp only [Option.mem_def, Option.some.injEq] at hb
        rw [← hb]
        simp [TEntry.isRule]

theorem getLast?_cons_ne_nil {α : Type} (a : α) {l : List α} (h : l ≠ []) :
    (a :: l).getLast? = l.getLast? := by
  match l with
  | [] => exact absurd rfl h
  | b :: l2 => rw [List.getLast?_cons_cons]

theorem interleave_ne_nil (g : List (List String)) (hg : g ≠ []) :
    List.intersperse (TEntry.rule .no) (g.map TEntry.data) ≠ [] := by
  match g with
  | x :: g2 =>
    match g2 with
    | [] => simp [List.intersperse_singleton]
    | y :: g3 =>
      simp only [List.map_cons]
      rw [List.intersperse_cons₂]
      simp

theorem interleave_last (g : List (List String)) (hg : g ≠ []) :
    ∃ r, (List.intersperse (TEntry.rule .no) (g.map TEntry.data)).getLast?
      = some (TEntry.data r) := by
  induction g with
  | nil => exact absurd rfl hg
  | cons x g ih =>
    match g with
    | [] => exact ⟨x, rfl⟩
    | y :: g2 =>
      obtain ⟨r, hr⟩ := ih (by simp)
      refine ⟨r, ?_⟩
      simp only [List.map_cons] at hr ⊢
      rw [List.intersperse_cons₂]
      rw [List.getLast?_cons_cons]
      rw [getLast?_cons_ne_nil _ (by
        have := interleave_ne_nil (y :: g2) (by simp)
        simpa using this)]
      exact hr

theorem newlineSplit_ne_nil (row : List String) : newlineSplit row ≠ [] := by
  rw [newlineSplit_eq_intersperse]
  exact interleave_ne_nil _ (newlineGrid_ne_nil row)

theorem newlineSplit_chain (row : List String) :
    List.Chain' (fun a b : TEntry String => ¬(a.isRule = true ∧ b.isRule = true))
      (newlineSplit row) := by
  rw [newlineSplit_eq_intersperse]
  exact chain_interleave _

theorem newlineSplit_head (row : List String) :
    ∃ r, (newlineSplit row).head? = some (TEntry.data r) := by
  rw [newlineSplit_eq_intersperse]
  exact interleave_head _ (newlineGrid_ne_nil row)

theorem newlineSplit_last (row : List String) :
    ∃ r, (newlineSplit row).getLast? = some (TEntry.data r) := by
  rw [newlineSplit_eq_intersperse]
  exact interleave_last _ (newlineGrid_ne_nil row)

theorem processEntry_rule_eq (acc : List (TEntry String)) (r : Rule) :
    processEntry acc (.rule r)
      = match acc.getLast? with
        | some (.rule l0) =>
            acc.dropLast ++ [.rule (if r.priority < l0.priority then r else l0)]
        | _ => acc ++ [.rule r] := rfl

theorem processEntry_chain (acc : List (TEntry String)) (e : TEntry String)
    (h : List.Chain' (fun a b : TEntry String => ¬(a.isRule = true ∧ b.isRule = true)) acc) :
    List.Chain' (fun a b : TEntry String => ¬(a.isRule = true ∧ b.isRule = true))
      (processEntry acc e) := by
  cases e with
  | rule r =>
    rcases List.eq_nil_or_concat acc with rfl | ⟨init, e0, rfl⟩
    · exact List.chain'_singleton _
    · rw [List.concat_eq_append] at h ⊢
      cases e0 with
      | data d =>
        rw [processEntry_rule_eq, List.getLast?_concat]
        show List.Chain' _ ((init ++ [TEntry.data d]) ++ [TEntry.rule r])
        rw [List.chain'_append]
        refine ⟨h, List.chain'_singleton _, ?_⟩
        intro x hx y hy
        rw [List.getLast?_concat] at hx
        cases hx
        cases hy
        simp [TEntry.isRule]
      | rule r0 =>
        rw [processEntry_rule_eq, List.getLast?_concat]
        show List.Chain' _ ((init ++ [TEntry.rule r0]).dropLast
          ++ [TEntry.rule (if r.priority < r0.priority then r else r0)])
        rw [List.dropLast_concat]
        rw [List.chain'_append] at h ⊢
        refine ⟨h.1, List.chain'_singleton _, ?_⟩
        intro x hx y hy
        cases hy
        have hxr := h.2.2 x hx (TEntry.rule r0) rfl
        intro hc
        exact hxr ⟨hc.1, rfl⟩
  | data row =>
    show List.Chain' _ (acc ++ newlineSplit row ++ [TEntry.rule .mid])
    rw [List.chain'_append, List.chain'_append]
    refine ⟨⟨h, newlineSplit_chain row, ?_⟩, List.chain'_singleton _, ?_⟩
    · intro x hx y hy
      obtain ⟨r0, hr0⟩ := newlineSplit_head row
      rw [hr0] at hy
      cases hy
      simp [TEntry.isRule]
    · intro x hx y hy
      cases hy
      obtain ⟨r0, hr0⟩ := newlineSplit_last row
      rw [List.getLast?_append_of_ne_nil acc (newlineSplit_ne_nil row), hr0] at hx
      cases hx
      simp [TEntry.isRule]

theorem foldl_processEntry_chain (tbl : List (TEntry String)) :
    ∀ acc, List.Chain' (fun a b : TEntry String => ¬(a.isRule = true ∧ b.isRule = true)) acc →
    List.Chain' (fun a b : TEntry String => ¬(a.isRule = true ∧ b.isRule = true))
      (tbl.foldl processEntry acc) := by
  induction tbl with
  | nil => exact fun acc h => h
  | cons e rest ih =>
    intro acc h
    rw [List.foldl_cons]
    exact ih _ (processEntry_chain acc e h)

theorem chain_dropLast {l : List (TEntry String)}
    (h : List.Chain' (fun a b : TEntry String => ¬(a.isRule = true ∧ b.isRule = true)) l) :
    List.Chain' (fun a b : TEntry String => ¬(a.isRule = true ∧ b.isRule = true))
      l.dropLast := by
  rcases List.eq_nil_or_concat l with rfl | ⟨init, e0, rfl⟩
  · exact h
  · rw [List.concat_eq_append] at h ⊢
    rw [List.dropLast_concat]
    rw [List.chain'_append] at h
    exact h.1

/-! ## Claim C3: adjacent rule markers collapse to the lower priority -/

/-- Claim C3: the normalisation loop of `print_table` never leaves two
rule markers adjacent; when a rule arrives while the previous entry is a
rule, exactly the one with the smaller priority value survives (the
earlier one on a tie); and for the rows `[r1, ExtraRule, r2]` (with the
head rule omitted) exactly one separator line is emitted between the
renderings of `r1` and `r2`, shown with the `test` style that draws every
rule. -/
theorem c3_rule_collapse :
    (∀ (tbl lines : List (TEntry String)), buildLines tbl = .ok lines →
      List.Chain' (fun a b : TEntry String => ¬(a.isRule = true ∧ b.isRule = true)) lines)
    ∧ (∀ (pre : List (TEntry String)) (r0 r : Rule),
        processEntry (pre ++ [.rule r0]) (.rule r)
          = pre ++ [.rule (if r.priority < r0.priority then r else r0)])
    ∧ printTable .stest [.data [.vstr "a"], .rule .extra, .data [.vstr "b"]] .hnone
        none "" (.astr "l") none .fnone true none false
        = .ok ["---TopRule---", "^> a <||>  <$", "---ExtraRule---", "^> b <||>  <$",
            "---BotRule---"] := by
  refine ⟨?_, ?_, by decide⟩
  · intro tbl lines h
    have hch := foldl_processEntry_chain tbl [] List.chain'_nil
    rw [buildLines] at h
    rcases hf : tbl.foldl processEntry [] with _ | ⟨e, l⟩
    · rw [hf] at h
      cases h
    · rw [hf] at h
      simp only [Except.ok.injEq] at h
      rw [← h]
      rw [hf] at hch
      exact chain_dropLast hch
  · intro pre r0 r
    show (match (pre ++ [TEntry.rule r0]).getLast? with
      | some (.rule l0) => (pre ++ [TEntry.rule r0]).dropLast
          ++ [TEntry.rule (if r.priority < l0.priority then r else l0)]
      | _ => (pre ++ [TEntry.rule r0]) ++ [TEntry.rule r]) = _
    rw [List.getLast?_concat]
    rw [List.dropLast_concat]

/-- Witness for C3: the loop output for `[r1, ExtraRule, r2]` keeps the
`ExtraRule` (priority 4) and drops the automatic `MidRule` (priority 5),
leaving no adjacent rules. -/
theorem c3_rule_collapse_witness :
    buildLines [TEntry.data ["a"], TEntry.rule .extra, TEntry.data ["b"]]
      = .ok [TEntry.data ["a"], TEntry.rule .extra, TEntry.data ["b"]]
    ∧ List.Chain' (fun a b : TEntry String => ¬(a.isRule = true ∧ b.isRule = true))
        [TEntry.data ["a"], TEntry.rule .extra, TEntry.data ["b"]] :=
  ⟨by decide,
    c3_rule_collapse.1 [TEntry.data ["a"], TEntry.rule .extra, TEntry.data ["b"]]
      [TEntry.data ["a"], TEntry.rule .extra, TEntry.data ["b"]] (by decide)⟩

/-! ## Lemmas: `maxLen` and `_transpose` -/

theorem maxLen_eq_foldl {α : Type} (tbl : List (List α)) :
    maxLen tbl = (tbl.map List.length).foldl max 0 := by
  rw [maxLen, List.foldl_map]

theorem maxLen_ge_mem {α : Type} {tbl : List (List α)} {r : List α} (h : r ∈ tbl) :
    r.length ≤ maxLen tbl := by
  rw [maxLen_eq_foldl]
  exact foldl_max_le_of_mem (List.mem_map_of_mem List.length h) 0

theorem foldl_max_le {xs : List Nat} {n : Nat} (h : ∀ x ∈ xs, x ≤ n) :
    ∀ a, a ≤ n → xs.foldl max a ≤ n := by
  induction xs with
  | nil => exact fun a ha => ha
  | cons x xs ih =>
    intro a ha
    rw [List.foldl_cons]
    exact ih (fun y hy => h y (List.mem_cons_of_mem x hy)) (max a x)
      (max_le ha (h x (List.mem_cons_self x xs)))

theorem maxLen_le {α : Type} {tbl : List (List α)} {n : Nat}
    (h : ∀ r ∈ tbl, r.length ≤ n) : maxLen tbl ≤ n := by
  rw [maxLen_eq_foldl]
  refine foldl_max_le ?_ 0 (Nat.zero_le n)
  intro x hx
  obtain ⟨r, hr, rfl⟩ := List.mem_map.1 hx
  exact h r hr

theorem maxLen_mem {α : Type} {tbl : List (List α)} (h : tbl ≠ []) :
    ∃ r ∈ tbl, r.length = maxLen tbl := by
  induction tbl with
  | nil => exact absurd rfl h
  | cons r rest ih =>
    match rest, ih with
    | [], _ =>
      refine ⟨r, List.mem_cons_self r [], ?_⟩
      have h1 : r.length ≤ maxLen [r] := maxLen_ge_mem (List.mem_cons_self r [])
      have h2 : maxLen [r] ≤ r.length := maxLen_le (by simp)
      omega
    | r2 :: rest2, ih =>
      obtain ⟨rm, hm, hlen⟩ := ih (by simp)
      by_cases hc : maxLen (r :: r2 :: rest2) ≤ maxLen (r2 :: rest2)
      · refine ⟨rm, List.mem_cons_of_mem r hm, ?_⟩
        have h1 : rm.length ≤ maxLen (r :: r2 :: rest2) :=
          maxLen_ge_mem (List.mem_cons_of_mem r hm)
        omega
      · refine ⟨r, List.mem_cons_self _ _, ?_⟩
        have h1 : r.length ≤ maxLen (r :: r2 :: rest2) :=
          maxLen_ge_mem (List.mem_cons_self _ _)
        have h2 : maxLen (r :: r2 :: rest2) ≤ max r.length (maxLen (r2 :: rest2)) := by
          refine maxLen_le ?_
          intro s hs
          rcases List.mem_cons.1 hs with rfl | hs2
          · exact le_max_left _ _
          · exact le_trans (maxLen_ge_mem hs2) (le_max_right _ _)
        omega

theorem maxLen_of_uniform {α : Type} {tbl : List (List α)} {m : Nat}
    (hne : tbl ≠ []) (h : ∀ r ∈ tbl, r.length = m) : maxLen tbl = m := by
  obtain ⟨r, hr, hlen⟩ := maxLen_mem hne
  rw [← hlen, h r hr]

theorem transposeFill_length {α : Type} (fill : α) (tbl : List (List α)) :
    (transposeFill fill tbl).length = maxLen tbl := by
  simp [transposeFill]

theorem mem_transposeFill_length {α : Type} {fill : α} {tbl : List (List α)}
    {col : List α} (h : col ∈ transposeFill fill tbl) : col.length = tbl.length := by
  obtain ⟨j, _, rfl⟩ := List.mem_map.1 h
  simp

theorem getD_map_get {α β : Type} (tbl : List α) (f : α → β) (i : Nat) (d : β)
    (hi : i < tbl.length) :
    (tbl.map f).getD i d = f (tbl.get ⟨i, hi⟩) := by
  rw [List.getD_eq_get?, List.get?_map, List.get?_eq_get hi]
  rfl

theorem range_map_getD_pad {α : Type} (r : List α) (n : Nat) (fill : α)
    (h : r.length ≤ n) :
    (List.range n).map (fun j => r.getD j fill)
      = r ++ List.replicate (n - r.length) fill := by
  apply List.ext_getElem
  · simp
    omega
  intro j h1 h2
  simp only [List.getElem_map, List.getElem_range]
  rw [List.getElem_append]
  split
  · rename_i hj
    exact List.getD_eq_getElem r fill hj
  · rename_i hj
    rw [List.getElem_replicate]
    exact List.getD_eq_default r fill (by omega)

/-- Transposing twice pads every row with the fill value to the length of
the longest row. -/
theorem transposeFill_transposeFill {α : Type} (fill : α) (tbl : List (List α))
    (h : 1 ≤ maxLen tbl) :
    transposeFill fill (transposeFill fill tbl)
      = tbl.map fun r => r ++ List.replicate (maxLen tbl - r.length) fill := by
  have hTlen : (transposeFill fill tbl).length = maxLen tbl := transposeFill_length fill tbl
  have hTuniform : ∀ col ∈ transposeFill fill tbl, col.length = tbl.length :=
    fun col hc => mem_transposeFill_length hc
  have hTne : transposeFill fill tbl ≠ [] := by
    intro hc
    rw [hc] at hTlen
    simp at hTlen
    omega
  have hTmax : maxLen (transposeFill fill tbl) = tbl.length :=
    maxLen_of_uniform hTne hTuniform
  rw [transposeFill, hTmax]
  apply List.ext_getElem
  · simp
  intro i h1 h2
  simp only [List.getElem_map, List.getElem_range]
  have hilt : i < tbl.length := by simpa using h1
  rw [transposeFill]
  rw [List.map_map]
  have hcell : ∀ j (hj : j < maxLen tbl),
      ((fun r => r.getD i fill) ∘ fun j => tbl.map fun r => r.getD j fill) j
        = (tbl.get ⟨i, hilt⟩).getD j fill := by
    intro j hj
    simp only [Function.comp]
    exact getD_map_get tbl (fun r => r.getD j fill) i fill hilt
  rw [List.map_congr_left (fun j hj => hcell j (List.mem_range.1 hj))]
  rw [range_map_getD_pad _ _ _ (maxLen_ge_mem (tbl.get_mem _ _))]
  rw [List.get_eq_getElem]

/-! ## Lemmas: data rows surviving the normalisation loop -/

theorem filterMap_interleave (g : List (List String)) :
    (List.intersperse (TEntry.rule .no) (g.map TEntry.data)).filterMap entryData?
      = g := by
  induction g with
  | nil => rfl
  | cons x g ih =>
    match g with
    | [] => rfl
    | y :: g2 =>
      simp only [List.map_cons] at ih ⊢
      rw [List.intersperse_cons₂]
      simp only [List.filterMap_cons]
      rw [show entryData? (TEntry.data x) = some x from rfl,
        show entryData? (TEntry.rule .no : TEntry String) = none from rfl]
      rw [ih]

theorem newlineSplit_filterMap_data (row : List String) :
    (newlineSplit row).filterMap entryData? = newlineGrid row := by
  rw [newlineSplit_eq_intersperse]
  exact filterMap_interleave _

theorem newlineGrid_row_lengths {row sub : List String}
    (h : sub ∈ newlineGrid row) : sub.length = row.length := by
  rw [newlineGrid_eq_spec, newlineRowsSpec] at h
  obtain ⟨i, _, rfl⟩ := List.mem_map.1 h
  simp

theorem newlineGrid_head_mem (row : List String) :
    ∃ sub ∈ newlineGrid row, sub.length = row.length := by
  match hg : newlineGrid row with
  | [] => exact absurd hg (newlineGrid_ne_nil row)
  | sub :: g2 =>
    refine ⟨sub, List.mem_cons_self _ _, ?_⟩
    exact newlineGrid_row_lengths (hg ▸ List.mem_cons_self sub g2)

theorem processEntry_ne_nil (acc : List (TEntry String)) (e : TEntry String) :
    processEntry acc e ≠ [] := by
  cases e with
  | data row => simp [processEntry]
  | rule r =>
    rw [processEntry_rule_eq]
    match acc.getLast? with
    | none => simp
    | some (.data d) => simp
    | some (.rule r0) => simp

theorem foldl_processEntry_ne_nil : ∀ (tbl : List (TEntry String))
    (acc : List (TEntry String)), (tbl = [] → acc ≠ []) →
    tbl.foldl processEntry acc ≠ [] := by
  intro tbl
  induction tbl with
  | nil => exact fun acc h => h rfl
  | cons e rest ih =>
    intro acc _
    rw [List.foldl_cons]
    exact ih (processEntry acc e) (fun _ => processEntry_ne_nil acc e)

theorem buildLines_eq (tbl : List (TEntry String)) :
    buildLines tbl
      = match tbl.foldl processEntry [] with
        | [] => .error "IndexError: pop from empty list"
        | l => .ok l.dropLast := rfl

theorem buildLines_isOk {tbl : List (TEntry String)} (h : tbl ≠ []) :
    buildLines tbl = .ok (tbl.foldl processEntry []).dropLast := by
  rw [buildLines_eq]
  have hne := foldl_processEntry_ne_nil tbl [] (fun hc => absurd hc h)
  match hf : tbl.foldl processEntry [] with
  | [] => exact absurd hf hne
  | a :: l => rfl

theorem processEntry_filterMap_data (acc : List (TEntry String)) (e : TEntry String) :
    (processEntry acc e).filterMap entryData?
      = acc.filterMap entryData?
        ++ (match e with
            | .data r => (newlineSplit r).filterMap entryData?
            | .rule _ => []) := by
  cases e with
  | data row =>
    show ((acc ++ newlineSplit row) ++ [TEntry.rule .mid]).filterMap entryData? = _
    rw [List.filterMap_append, List.filterMap_append]
    simp [entryData?]
  | rule r =>
    rw [processEntry_rule_eq]
    match hl : acc.getLast? with
    | none =>
      rw [List.filterMap_append]
      simp [entryData?]
    | some (.data d) =>
      rw [List.filterMap_append]
      simp [entryData?]
    | some (.rule r0) =>
      rcases List.eq_nil_or_concat acc with rfl | ⟨init, e0, rfl⟩
      · simp at hl
      · rw [List.concat_eq_append] at hl ⊢
        rw [List.getLast?_concat] at hl
        cases hl
        rw [List.dropLast_concat]
        rw [List.filterMap_append, List.filterMap_append]
        simp [entryData?]

theorem foldl_processEntry_filterMap_data : ∀ (tbl acc : List (TEntry String)),
    (tbl.foldl processEntry acc).filterMap entryData?
      = acc.filterMap entryData?
        ++ (tbl.map fun e =>
            match e with
            | TEntry.data r => (newlineSplit r).filterMap entryData?
            | TEntry.rule _ => ([] : List (List String))).join := by
  intro tbl
  induction tbl with
  | nil => intro acc; simp
  | cons e rest ih =>
    intro acc
    rw [List.foldl_cons, ih (processEntry acc e), processEntry_filterMap_data]
    rw [List.map_cons, List.append_assoc]
    rfl

theorem processEntry_last_isRule (acc : List (TEntry String)) (e : TEntry String) :
    ∃ r, (processEntry acc e).getLast? = some (TEntry.rule r) := by
  cases e with
  | data row =>
    refine ⟨.mid, ?_⟩
    show ((acc ++ newlineSplit row) ++ [TEntry.rule .mid]).getLast? = _
    rw [List.getLast?_concat]
  | rule r =>
    rw [processEntry_rule_eq]
    match acc.getLast? with
    | none => exact ⟨r, List.getLast?_concat _⟩
    | some (.data d) => exact ⟨r, List.getLast?_concat _⟩
    | some (.rule r0) => exact ⟨_, List.getLast?_concat _⟩

theorem foldl_processEntry_last_isRule : ∀ (tbl acc : List (TEntry String)),
    tbl ≠ [] → ∃ r, (tbl.foldl processEntry acc).getLast? = some (TEntry.rule r) := by
  intro tbl
  induction tbl with
  | nil => exact fun acc h => absurd rfl h
  | cons e rest ih =>
    intro acc _
    rw [List.foldl_cons]
    match rest with
    | [] => exact processEntry_last_isRule acc e
    | e2 :: rest2 => exact ih (processEntry acc e) (by simp)

theorem dropLast_filterMap_data_of_last_rule {l : List (TEntry String)} {r : Rule}
    (h : l.getLast? = some (TEntry.rule r)) :
    l.dropLast.filterMap entryData? = l.filterMap entryData? := by
  rcases List.eq_nil_or_concat l with rfl | ⟨init, e0, rfl⟩
  · rfl
  · rw [List.concat_eq_append] at h ⊢
    rw [List.getLast?_concat] at h
    cases h
    rw [List.dropLast_concat, List.filterMap_append]
    simp [entryData?]

/-! ## Lemmas: the default csv pipeline on ragged tables -/

theorem formatCell_empty (v : PyVal) : formatCell pyFormat "" v = pyStr v := rfl

theorem applyFormat_fnone_data (ds : List (List PyVal)) :
    applyFormat pyFormat .fnone (ds.map TEntry.data)
      = ds.map fun r => TEntry.data (r.map pyStr) := by
  rw [applyFormat, List.map_map]
  apply List.map_congr_left
  intro r _
  simp only [Function.comp]
  rw [show applyFormatRow pyFormat .fnone r = r.map (formatCell pyFormat "") from rfl]
  rw [List.map_congr_left fun v _ => formatCell_empty v]

theorem assembleTable_defaults_eq (tbl : List (TEntry PyVal)) (fm : Formatter) :
    assembleTable tbl .hnone none "" fm false false
      = .ok (pyInsert 1 (.rule .head) (applyFormat pyFormat fm tbl)) := rfl

theorem pyInsert_ne_nil {α : Type} (n : Nat) (x : α) (l : List α) :
    pyInsert n x l ≠ [] := by
  match n, l with
  | 0, l => simp [pyInsert]
  | n + 1, [] => simp [pyInsert]
  | n + 1, a :: l2 => simp [pyInsert]

theorem mem_pyInsert {α : Type} (a x : α) : ∀ (n : Nat) (l : List α),
    a ∈ pyInsert n x l ↔ a = x ∨ a ∈ l := by
  intro n
  induction n with
  | zero => intro l; simp [pyInsert]
  | succ n ih =>
    intro l
    match l with
    | [] => simp [pyInsert]
    | b :: l2 =>
      rw [pyInsert_succ_cons]
      rw [List.mem_cons, List.mem_cons, ih l2]
      tauto

theorem mem_grids_join {tblE : List (TEntry String)} {sub : List String} :
    sub ∈ (tblE.map fun e =>
        match e with
        | TEntry.data r => (newlineSplit r).filterMap entryData?
        | TEntry.rule _ => ([] : List (List String))).join
      ↔ ∃ r, TEntry.data r ∈ tblE ∧ sub ∈ newlineGrid r := by
  rw [List.mem_join]
  constructor
  · rintro ⟨li, hli, hsub⟩
    obtain ⟨e, he, rfl⟩ := List.mem_map.1 hli
    cases e with
    | data r =>
      refine ⟨r, he, ?_⟩
      have hsub2 : sub ∈ (newlineSplit r).filterMap entryData? := hsub
      rwa [newlineSplit_filterMap_data] at hsub2
    | rule r =>
      have hsub2 : sub ∈ ([] : List (List String)) := hsub
      simp at hsub2
  · rintro ⟨r, hr, hsub⟩
    have hmem : (newlineSplit r).filterMap entryData?
        ∈ tblE.map fun e =>
          match e with
          | TEntry.data r => (newlineSplit r).filterMap entryData?
          | TEntry.rule _ => ([] : List (List String)) :=
      List.mem_map_of_mem _ hr
    rw [newlineSplit_filterMap_data] at hmem
    exact ⟨newlineGrid r, hmem, hsub⟩

theorem cleaned_mem_iff (ds : List (List PyVal)) {sub : List String} :
    sub ∈ ((pyInsert 1 (TEntry.rule .head)
          (applyFormat pyFormat .fnone (ds.map TEntry.data))).foldl
          processEntry []).dropLast.filterMap entryData?
      ↔ ∃ r ∈ ds, sub ∈ newlineGrid (r.map pyStr) := by
  set T := pyInsert 1 (TEntry.rule .head)
    (applyFormat pyFormat .fnone (ds.map TEntry.data)) with hT
  have hTne : T ≠ [] := pyInsert_ne_nil _ _ _
  obtain ⟨r0, hlast⟩ := foldl_processEntry_last_isRule T [] hTne
  rw [dropLast_filterMap_data_of_last_rule hlast]
  rw [foldl_processEntry_filterMap_data]
  rw [show List.filterMap entryData? ([] : List (TEntry String)) = [] from rfl]
  rw [List.nil_append]
  rw [mem_grids_join]
  constructor
  · rintro ⟨r, hr, hsub⟩
    rw [hT, mem_pyInsert] at hr
    rcases hr with hc | hr
    · cases hc
    · rw [applyFormat_fnone_data] at hr
      obtain ⟨r2, hr2, hre⟩ := List.mem_map.1 hr
      cases hre
      exact ⟨r2, hr2, hsub⟩
  · rintro ⟨r, hr, hsub⟩
    refine ⟨r.map pyStr, ?_, hsub⟩
    rw [hT, mem_pyInsert]
    right
    rw [applyFormat_fnone_data]
    exact List.mem_map_of_mem _ hr

theorem cleaned_maxLen (ds : List (List PyVal))
    (hne : ds ≠ []) :
    maxLen (((pyInsert 1 (TEntry.rule .head)
          (applyFormat pyFormat .fnone (ds.map TEntry.data))).foldl
          processEntry []).dropLast.filterMap entryData?)
      = maxLen ds
    ∧ ((pyInsert 1 (TEntry.rule .head)
          (applyFormat pyFormat .fnone (ds.map TEntry.data))).foldl
          processEntry []).dropLast.filterMap entryData? ≠ [] := by
  obtain ⟨rm, hrm, hrmlen⟩ := maxLen_mem hne
  obtain ⟨subm, hsubm, hsubmlen⟩ := newlineGrid_head_mem (rm.map pyStr)
  have hsubm_mem := (cleaned_mem_iff ds).2 ⟨rm, hrm, hsubm⟩
  have hle : maxLen (((pyInsert 1 (TEntry.rule .head)
      (applyFormat pyFormat .fnone (ds.map TEntry.data))).foldl
      processEntry []).dropLast.filterMap entryData?) ≤ maxLen ds := by
    apply maxLen_le
    intro sub hsub
    obtain ⟨r, hr, hgrid⟩ := (cleaned_mem_iff ds).1 hsub
    have h1 : sub.length = (r.map pyStr).length := newlineGrid_row_lengths hgrid
    rw [h1, List.length_map]
    exact maxLen_ge_mem hr
  have hge : maxLen ds ≤ maxLen (((pyInsert 1 (TEntry.rule .head)
      (applyFormat pyFormat .fnone (ds.map TEntry.data))).foldl
      processEntry []).dropLast.filterMap entryData?) := by
    have := maxLen_ge_mem hsubm_mem
    rw [hsubmlen, List.length_map, hrmlen] at this
    exact this
  refine ⟨le_antisymm hle hge, ?_⟩
  intro hc
  rw [hc] at hsubm_mem
  cases hsubm_mem

theorem alignTable_some_length (al : List (Option String))
    (cols : List (List String)) (ws : List Nat) :
    (alignTable (some al) cols ws).length
      = min al.length (min cols.length ws.length) := by
  simp [alignTable]

theorem mem_alignTable_length {al : List (Option String)}
    {cols : List (List String)} {ws : List Nat} {col : List String}
    (h : col ∈ alignTable (some al) cols ws) :
    ∃ colj ∈ cols, col.length = colj.length := by
  simp only [alignTable] at h
  obtain ⟨p, hp, rfl⟩ := List.mem_map.1 h
  have hp2 : (p.1, p.2) ∈ (al.map alignCode).zip (cols.zip ws) := by
    rwa [Prod.mk.eta]
  have h2 := (List.mem_zip hp2).2
  have hp3 : (p.2.1, p.2.2) ∈ cols.zip ws := by
    rwa [Prod.mk.eta]
  exact ⟨p.2.1, (List.mem_zip hp3).1, by simp⟩

theorem layoutTable_none_eq (k : StyleKind) (a : AlignSpec) (tls : List (TEntry String)) :
    layoutTable k a none tls
      = Except.bind (findColWidth (transposeFill "" (cleanTable tls).1)) fun ws =>
          Except.ok
            (styleModify k ws (getAlignments (transposeFill "" (cleanTable tls).1) a),
             getAlignments (transposeFill "" (cleanTable tls).1) a,
             reinsertRules
               ((transposeFill ""
                 (alignTable (getAlignments (transposeFill "" (cleanTable tls).1) a)
                   (transposeFill "" (cleanTable tls).1)
                   (styleModify k ws
                     (getAlignments (transposeFill "" (cleanTable tls).1) a)))).map
                 TEntry.data)
               (cleanTable tls).2) := rfl

theorem rowRender_ok (c : StyleCfg) {row : List String} (h : row ≠ []) :
    ∃ s, rowRender c row = .ok s := by
  match row with
  | [] => exact absurd rfl h
  | x :: rest => exact ⟨_, rfl⟩

theorem foldlM_renderStep_csv_ok (ws : List Nat) (al : Option (List (Option String))) :
    ∀ (tbl : List (TEntry String)) (acc : List String),
    (∀ row, TEntry.data row ∈ tbl → row ≠ []) →
    ∃ out, tbl.foldlM (renderStep .scsv ws al) acc = .ok out := by
  intro tbl
  induction tbl with
  | nil => exact fun acc _ => ⟨acc, rfl⟩
  | cons e rest ih =>
    intro acc h
    rw [List.foldlM_cons]
    cases e with
    | data row =>
      obtain ⟨s, hs⟩ := rowRender_ok (styleCfg .scsv) (h row (List.mem_cons_self _ _))
      have hstep : renderStep .scsv ws al acc (TEntry.data row) = .ok (acc ++ [s]) := by
        show Except.bind (rowRender (styleCfg .scsv) row)
          (fun s => Except.ok (acc ++ [s])) = _
        rw [hs]
        rfl
      rw [hstep]
      exact ih (acc ++ [s]) fun r hr => h r (List.mem_cons_of_mem _ hr)
    | rule r =>
      have hstep : renderStep .scsv ws al acc (TEntry.rule r)
          = .ok (acc ++ (match r with
              | Rule.extra => some ""
              | _ => (none : Option String)).toList) := rfl
      rw [hstep]
      exact ih _ fun r2 hr2 => h r2 (List.mem_cons_of_mem _ hr2)

theorem renderTable_csv_ok (cap : Option String) (ws : List Nat)
    (al : Option (List (Option String))) (tbl : List (TEntry String))
    (h : ∀ row, TEntry.data row ∈ tbl → row ≠ []) :
    ∃ out, renderTable .scsv cap ws al tbl = .ok out := by
  obtain ⟨body, hbody⟩ := foldlM_renderStep_csv_ok ws al tbl [] h
  have h1 : renderTable .scsv cap ws al tbl
      = Except.bind (tbl.foldlM (renderStep .scsv ws al) []) fun body =>
          Except.ok ((match cap with | none => [] | some c => [c])
            ++ [] ++ body ++ []) := rfl
  rw [h1, hbody]
  exact ⟨_, rfl⟩

theorem printTable_eq_bind (k : StyleKind) (table : List (TEntry PyVal))
    (headCol : HeadColSpec) (headRow : Option (List PyVal)) (topLeft : String)
    (align : AlignSpec) (caption : Option String) (formatter : Formatter)
    (omitHeadrule : Bool) (replacement : Option (List (String × String)))
    (transposeData : Bool) :
    printTable k table headCol headRow topLeft align caption formatter omitHeadrule
        replacement transposeData
      = Except.bind (assembleTable table headCol headRow topLeft formatter
          omitHeadrule transposeData) (fun tbl =>
          Except.bind (buildLines tbl) fun tableLines =>
            Except.bind (layoutTable k align replacement tableLines) fun l =>
              renderTable k caption l.1 l.2.1 l.2.2) := rfl

/-! ## Claim C10: ragged rows are padded, `print_table` does not raise -/

/-- Claim C10: transposing twice pads every short row with empty strings
up to the longest row's length, and for every table of data rows with
unequal cell counts (with `head_col=None` and the other arguments at
their defaults) `print_table` returns lines instead of raising, with
every data row of the laid-out table as wide as the widest input row. -/
theorem c10_ragged_rows_padded :
    (∀ (tbl : List (List String)), 1 ≤ maxLen tbl →
      transposeFill "" (transposeFill "" tbl)
        = tbl.map fun r => r ++ List.replicate (maxLen tbl - r.length) "")
    ∧ ∀ (ds : List (List PyVal)),
        (∃ r1 ∈ ds, ∃ r2 ∈ ds, r1.length ≠ r2.length) →
        (∃ ls, printTable .scsv (ds.map TEntry.data) .hnone none "" (.astr "l") none
            .fnone false none false = .ok ls)
        ∧ ∀ (tls : List (TEntry String))
            (res : List Nat × Option (List (Option String)) × List (TEntry String)),
            buildLines (pyInsert 1 (.rule .head)
              (applyFormat pyFormat .fnone (ds.map TEntry.data))) = .ok tls →
            layoutTable .scsv (.astr "l") none tls = .ok res →
            ∀ row, TEntry.data row ∈ res.2.2 → row.length = maxLen ds := by
  refine ⟨fun tbl h => transposeFill_transposeFill "" tbl h, ?_⟩
  intro ds hq
  obtain ⟨r1, hr1, r2, hr2, hne12⟩ := hq
  have hdsne : ds ≠ [] := by
    intro hc
    rw [hc] at hr1
    cases hr1
  have hW1 : 1 ≤ maxLen ds := by
    have h1 := maxLen_ge_mem hr1
    have h2 := maxLen_ge_mem hr2
    omega
  obtain ⟨hclmax, hclne⟩ := cleaned_maxLen ds hdsne
  set T := pyInsert 1 (TEntry.rule .head)
    (applyFormat pyFormat .fnone (ds.map TEntry.data)) with hTdef
  set tls := (T.foldl processEntry []).dropLast with htls
  set cleaned := tls.filterMap entryData? with hcleaned
  have hTne : T ≠ [] := pyInsert_ne_nil _ _ _
  have hbuild : buildLines T = .ok tls := buildLines_isOk hTne
  have hfst : (cleanTable tls).1 = cleaned := cleanTableAux_fst tls 0
  -- the transposed columns
  have hcolslen : (transposeFill "" cleaned).length = maxLen ds := by
    rw [transposeFill_length, hclmax]
  have hcols_ne : ∀ col ∈ transposeFill "" cleaned, col ≠ [] := by
    intro col hc hcnil
    have hlen := mem_transposeFill_length hc
    rw [hcnil] at hlen
    exact hclne (List.length_eq_zero.mp hlen.symm)
  obtain ⟨ws, hws⟩ := findColWidth_isOk hcols_ne
  have hwslen : ws.length = maxLen ds := by
    rw [findColWidth_ok_length hws, hcolslen]
  -- aligned columns and the row-major table
  have hcolsAlen : (alignTable
      (some (List.replicate (transposeFill "" cleaned).length (some "l")))
      (transposeFill "" cleaned) ws).length = maxLen ds := by
    rw [alignTable_some_length]
    simp [hcolslen, hwslen]
  have hcolsA_unif : ∀ col ∈ alignTable
      (some (List.replicate (transposeFill "" cleaned).length (some "l")))
      (transposeFill "" cleaned) ws, col.length = cleaned.length := by
    intro col hc
    obtain ⟨colj, hcj, hlen⟩ := mem_alignTable_length hc
    rw [hlen, mem_transposeFill_length hcj]
  have hcolsA_ne : alignTable
      (some (List.replicate (transposeFill "" cleaned).length (some "l")))
      (transposeFill "" cleaned) ws ≠ [] := by
    intro hc
    rw [hc] at hcolsAlen
    simp at hcolsAlen
    omega
  have hcolsAmax : maxLen (alignTable
      (some (List.replicate (transposeFill "" cleaned).length (some "l")))
      (transposeFill "" cleaned) ws) = cleaned.length :=
    maxLen_of_uniform hcolsA_ne hcolsA_unif
  have hrmlen : (transposeFill "" (alignTable
      (some (List.replicate (transposeFill "" cleaned).length (some "l")))
      (transposeFill "" cleaned) ws)).length = cleaned.length := by
    rw [transposeFill_length, hcolsAmax]
  have hrm_rows : ∀ row ∈ transposeFill "" (alignTable
      (some (List.replicate (transposeFill "" cleaned).length (some "l")))
      (transposeFill "" cleaned) ws), row.length = maxLen ds := by
    intro row hr
    rw [mem_transposeFill_length hr, hcolsAlen]
  have hmergelen : (transposeFill "" (alignTable
      (some (List.replicate (transposeFill "" cleaned).length (some "l")))
      (transposeFill "" cleaned) ws)).length = (cleanTable tls).1.length := by
    rw [hrmlen, hfst]
  -- the layout stage output
  have hlayout : layoutTable .scsv (.astr "l") none tls
      = .ok (ws,
          some (List.replicate (transposeFill "" cleaned).length (some "l")),
          mergeBack tls (transposeFill "" (alignTable
            (some (List.replicate (transposeFill "" cleaned).length (some "l")))
            (transposeFill "" cleaned) ws))) := by
    rw [layoutTable_none_eq, hfst, hws]
    simp only [Except.bind]
    have hmb := reinsert_eq_mergeBack tls
      (transposeFill "" (alignTable
        (getAlignments (transposeFill "" cleaned) (.astr "l"))
        (transposeFill "" cleaned)
        (styleModify .scsv ws (getAlignments (transposeFill "" cleaned) (.astr "l")))))
      (by exact hmergelen)
    rw [hmb]
    rfl
  -- every data row of the merged table is as wide as the widest input row
  have hdata_rows : ∀ row, TEntry.data row ∈ mergeBack tls (transposeFill ""
      (alignTable (some (List.replicate (transposeFill "" cleaned).length (some "l")))
        (transposeFill "" cleaned) ws)) → row.length = maxLen ds := by
    intro row hrow
    have hmem : row ∈ (mergeBack tls (transposeFill ""
        (alignTable (some (List.replicate (transposeFill "" cleaned).length (some "l")))
          (transposeFill "" cleaned) ws))).filterMap entryData? :=
      List.mem_filterMap.2 ⟨TEntry.data row, hrow, rfl⟩
    rw [mergeBack_filterMap_data tls _ hmergelen] at hmem
    exact hrm_rows row hmem
  constructor
  · -- the whole pipeline returns lines
    have hrows_ne : ∀ row, TEntry.data row ∈ mergeBack tls (transposeFill ""
        (alignTable (some (List.replicate (transposeFill "" cleaned).length (some "l")))
          (transposeFill "" cleaned) ws)) → row ≠ [] := by
      intro row hrow hnil
      have hlen := hdata_rows row hrow
      rw [hnil] at hlen
      simp at hlen
      omega
    obtain ⟨out, hout⟩ := renderTable_csv_ok none ws
      (some (List.replicate (transposeFill "" cleaned).length (some "l")))
      (mergeBack tls (transposeFill ""
        (alignTable (some (List.replicate (transposeFill "" cleaned).length (some "l")))
          (transposeFill "" cleaned) ws))) hrows_ne
    refine ⟨out, ?_⟩
    rw [printTable_eq_bind, assembleTable_defaults_eq, ← hTdef]
    simp only [Except.bind]
    rw [hbuild]
    simp only [Except.bind]
    rw [hlayout]
    simp only [Except.bind]
    exact hout
  · intro tls2 res hb2 hl2
    rw [hbuild] at hb2
    injection hb2 with hb2eq
    subst hb2eq
    rw [hlayout] at hl2
    injection hl2 with hl2eq
    subst hl2eq
    exact hdata_rows

/-- Witness for C10 at the ragged table `[["a"], ["b", "c"]]`. -/
theorem c10_ragged_rows_padded_witness :
    (∃ r1 ∈ [[PyVal.vstr "a"], [PyVal.vstr "b", PyVal.vstr "c"]],
      ∃ r2 ∈ [[PyVal.vstr "a"], [PyVal.vstr "b", PyVal.vstr "c"]],
        List.length r1 ≠ List.length r2)
    ∧ ∃ ls, printTable .scsv
        ([[PyVal.vstr "a"], [PyVal.vstr "b", PyVal.vstr "c"]].map TEntry.data)
        .hnone none "" (.astr "l") none .fnone false none false = .ok ls :=
  ⟨by decide,
    (c10_ragged_rows_padded.2 [[PyVal.vstr "a"], [PyVal.vstr "b", PyVal.vstr "c"]]
      (by decide)).1⟩

end Brplotviz
